import Mathlib

/-!
A shallow embedding of `src/utils.js` of the `unchanged` repository.

JavaScript values are modelled as `Val`: either a primitive (`Prim`) or a
reference into an explicit heap (`Heap`).  The heap maps addresses to `Cell`s,
the mutable objects of the host language: arrays (with ordinary element list
and, as in the host, a separate list of non-index named properties), plain
objects, non-plain objects (`customC`, carrying whether their constructor is a
native function), `Date`/`RegExp` instances, and react-element-tagged objects.
Mutation and allocation are explicit heap-passing, so reference identity and
structural sharing are expressible.  Numbers are modelled as integers; the
implicit `length` property of arrays and strings is not exposed as a readable
key (no claim exercises it).  Paths are consumed in already-parsed form, as in
the source when an array is supplied (the external `pathington` parser is out
of scope per the specification).
-/

namespace Unchanged

/-- A primitive (non-object) JavaScript value. -/
inductive Prim where
  | undef
  | null
  | boolV (b : Bool)
  | num (n : Int)
  | str (s : String)
deriving DecidableEq

/-- A JavaScript value: a primitive or a reference to a heap cell. -/
inductive Val where
  | prim (p : Prim)
  | ref (a : Nat)
deriving DecidableEq

/-- A heap cell: one mutable host object.  Arrays keep their element list and
their non-index named properties separately, as the host does. -/
inductive Cell where
  | arrC (elems : List Val) (props : List (String × Val))
  | objC (fields : List (String × Val))
  | customC (nativeCtor : Bool) (fields : List (String × Val))
  | dateC
  | regexC
  | reactC (fields : List (String × Val))
deriving DecidableEq

/-- A path key: a non-negative integer index or a string name
(`typeof key === 'number'` vs string in the source). -/
inductive Key where
  | idx (n : Nat)
  | name (s : String)
deriving DecidableEq

/-- First binding of an address in an association list of cells. -/
def findCell : List (Nat × Cell) → Nat → Option Cell
  | [], _ => none
  | (b, c) :: rest, a => if b = a then some c else findCell rest a

/-- Replace the first binding of an address; no-op when the address is absent. -/
def setCells : List (Nat × Cell) → Nat → Cell → List (Nat × Cell)
  | [], _, _ => []
  | (b, c0) :: rest, a, c => if b = a then (a, c) :: rest else (b, c0) :: setCells rest a c

/-- An explicit heap: an association list of cells and the next fresh address. -/
structure Heap where
  cells : List (Nat × Cell)
  next : Nat
deriving DecidableEq

/-- The cell at an address, if allocated. -/
def Heap.find (h : Heap) (a : Nat) : Option Cell :=
  findCell h.cells a

/-- Allocate a new cell at the next fresh address. -/
def Heap.alloc (h : Heap) (c : Cell) : Val × Heap :=
  (Val.ref h.next, ⟨(h.next, c) :: h.cells, h.next + 1⟩)

/-- Overwrite the cell at an address. -/
def Heap.set (h : Heap) (a : Nat) (c : Cell) : Heap :=
  ⟨setCells h.cells a c, h.next⟩

/-- Every allocated address is below the fresh-address counter. -/
def Heap.wfB (h : Heap) : Bool :=
  h.cells.all (fun p => p.1 < h.next)

/-- Does a value only reference addresses below `n`? -/
def valBelow (n : Nat) : Val → Bool
  | .ref a => a < n
  | .prim _ => true

/-- Do all values of a field list only reference addresses below `n`? -/
def fieldsBelow (n : Nat) (l : List (String × Val)) : Bool :=
  l.all (fun p => valBelow n p.2)

/-- Does a cell only reference addresses below `n`? -/
def cellBelow (n : Nat) : Cell → Bool
  | .arrC elems props => elems.all (valBelow n) && fieldsBelow n props
  | .objC fields => fieldsBelow n fields
  | .customC _ fields => fieldsBelow n fields
  | .reactC fields => fieldsBelow n fields
  | .dateC => true
  | .regexC => true

/-- A closed heap: cells only reference allocated (below-counter) addresses. -/
def Heap.closedB (h : Heap) : Bool :=
  h.cells.all (fun p => cellBelow h.next p.2)

/-- JavaScript truthiness of a value. -/
def truthy : Val → Bool
  | .prim .undef => false
  | .prim .null => false
  | .prim (.boolV b) => b
  | .prim (.num n) => decide (n ≠ 0)
  | .prim (.str s) => decide (s ≠ "")
  | .ref _ => true

/-- First value bound to a name in a field list. -/
def lookupField : List (String × Val) → String → Option Val
  | [], _ => none
  | (k0, v) :: rest, k => if k0 = k then some v else lookupField rest k

/-- Overwrite the binding of a name in place, or append it at the end, as host
objects do. -/
def setField : List (String × Val) → String → Val → List (String × Val)
  | [], k, x => [(k, x)]
  | (k0, v) :: rest, k, x => if k0 = k then (k, x) :: rest else (k0, v) :: setField rest k x

/-- Numeric value of a decimal digit character. -/
def digitVal (c : Char) : Nat := c.toNat - 48

/-- The index denoted by a string when it is a canonical decimal numeral
(the host treats such names as array indexes). -/
def strAsIndex (s : String) : Option Nat :=
  match s.data with
  | [] => none
  | c :: cs =>
    if (c :: cs).all Char.isDigit && (c ≠ '0' || cs = []) then
      some ((c :: cs).foldl (fun n ch => n * 10 + digitVal ch) 0)
    else none

/-- The property name a key denotes on a keyed object. -/
def keyName : Key → String
  | .idx n => toString n
  | .name s => s

/-- The array index a key denotes, when it denotes one. -/
def charKeyIndex : Key → Option Nat
  | .idx n => some n
  | .name s => strAsIndex s

/-- Element of a list of values at an index, `undefined` when out of range. -/
def listGetD : List Val → Nat → Val
  | [], _ => .prim .undef
  | x :: _, 0 => x
  | _ :: rest, n + 1 => listGetD rest n

/-- Set the element at an index, padding with `undefined` (host arrays extend
with holes, which read back as `undefined`). -/
def listSet : List Val → Nat → Val → List Val
  | [], 0, x => [x]
  | [], n + 1, x => .prim .undef :: listSet [] n x
  | _ :: rest, 0, x => x :: rest
  | e :: rest, n + 1, x => e :: listSet rest n x

/-- Host property read `v[k]`.  Characters of primitive strings are readable by
index; other primitives have no readable properties in this model. -/
def getProp (h : Heap) (v : Val) (k : Key) : Val :=
  match v with
  | .prim (.str s) =>
    match charKeyIndex k with
    | some n =>
      match s.data.get? n with
      | some c => .prim (.str (String.mk [c]))
      | none => .prim .undef
    | none => .prim .undef
  | .prim _ => .prim .undef
  | .ref a =>
    match h.find a with
    | some (.arrC elems props) =>
      match charKeyIndex k with
      | some n => listGetD elems n
      | none => (lookupField props (keyName k)).getD (.prim .undef)
    | some (.objC fields) => (lookupField fields (keyName k)).getD (.prim .undef)
    | some (.customC _ fields) => (lookupField fields (keyName k)).getD (.prim .undef)
    | some (.reactC fields) => (lookupField fields (keyName k)).getD (.prim .undef)
    | some .dateC => .prim .undef
    | some .regexC => .prim .undef
    | none => (.prim .undef)

/-- Host property write `v[k] = x`.  Writes to primitives and to
`Date`/`RegExp` cells are modelled as no-ops; every write the source performs
targets a freshly cloned array or keyed object, so those cases are unreachable
through the public operations. -/
def setProp (h : Heap) (v : Val) (k : Key) (x : Val) : Heap :=
  match v with
  | .prim _ => h
  | .ref a =>
    match h.find a with
    | some (.arrC elems props) =>
      match charKeyIndex k with
      | some n => h.set a (.arrC (listSet elems n x) props)
      | none => h.set a (.arrC elems (setField props (keyName k) x))
    | some (.objC fields) => h.set a (.objC (setField fields (keyName k) x))
    | some (.customC nc fields) => h.set a (.customC nc (setField fields (keyName k) x))
    | some (.reactC fields) => h.set a (.reactC (setField fields (keyName k) x))
    | some .dateC => h
    | some .regexC => h
    | none => h

/-- `Array.isArray`. -/
def isArray (h : Heap) (v : Val) : Bool :=
  match v with
  | .ref a =>
    match h.find a with
    | some (.arrC _ _) => true
    | _ => false
  | .prim _ => false

/-- `isCloneable` of the source: truthy, of object type, not a `Date` or
`RegExp` instance, and not tagged as a react element. -/
def isCloneable (h : Heap) (v : Val) : Bool :=
  match v with
  | .ref a =>
    match h.find a with
    | some (.arrC _ _) => true
    | some (.objC _) => true
    | some (.customC _ _) => true
    | some (.reactC _) => false
    | some .dateC => false
    | some .regexC => false
    | none => false
  | .prim _ => false

/-- `getShallowClone` of the source.  Arrays spread to a fresh array of the
same elements (named properties are not copied by a spread); plain objects
spread to a fresh plain object with the same fields; a non-plain object whose
constructor is a native function degrades to an empty plain object, otherwise
its own enumerable fields are copied into a fresh same-shaped instance.  React
elements are plain objects whose spread copies the tag.  On `null`/`undefined`
the source would throw; behind its `isCloneable` guards that case is
unreachable, and other primitives have native constructors, hence `{}`. -/
def getShallowClone (h : Heap) (v : Val) : Val × Heap :=
  match v with
  | .ref a =>
    match h.find a with
    | some (.arrC elems _) => h.alloc (.arrC elems [])
    | some (.objC fields) => h.alloc (.objC fields)
    | some (.customC nativeCtor fields) =>
      if nativeCtor then h.alloc (.objC []) else h.alloc (.customC false fields)
    | some (.reactC fields) => h.alloc (.reactC fields)
    | some .dateC => h.alloc (.objC [])
    | some .regexC => h.alloc (.objC [])
    | none => (v, h)
  | .prim .undef => (v, h)
  | .prim .null => (v, h)
  | .prim _ => h.alloc (.objC [])

/-- `getNewEmptyChild` of the source: a fresh empty array for a numeric key,
else a fresh empty plain object. -/
def getNewEmptyChild (h : Heap) (k : Key) : Val × Heap :=
  match k with
  | .idx _ => h.alloc (.arrC [] [])
  | .name _ => h.alloc (.objC [])

/-- `cloneIfPossible` of the source. -/
def cloneIfPossible (h : Heap) (v : Val) : Val × Heap :=
  if isCloneable h v then getShallowClone h v else (v, h)

/-- `getNewChildClone` of the source: the fresh empty child is built first;
a non-cloneable or kind-mismatched existing child is discarded for it. -/
def getNewChildClone (h : Heap) (object : Val) (nextKey : Key) : Val × Heap :=
  let empty := getNewEmptyChild h nextKey
  if !isCloneable empty.2 object then empty
  else if isArray empty.2 object == isArray empty.2 empty.1 then cloneIfPossible empty.2 object
  else empty

/-- `onMatchAtPath` of the source, consuming the path structurally (the source
recurses on an index into the path; on an empty path it would never terminate,
so the empty case is unreachable for the non-empty paths considered here). -/
def onMatchAtPath (h : Heap) (path : List Key) (object : Val)
    (onMatch : Heap → Val → Key → Val × Heap)
    (shouldClone : Bool) (noMatchValue : Val) : Val × Heap :=
  match path with
  | [] => (noMatchValue, h)
  | [key] =>
    if truthy object || shouldClone then
      let r := onMatch h object key
      if shouldClone then (object, r.2) else r
    else (noMatchValue, h)
  | key :: nextKey :: rest =>
    if shouldClone then
      let cc := getNewChildClone h (getProp h object key) nextKey
      let r := onMatchAtPath cc.2 (nextKey :: rest) cc.1 onMatch shouldClone noMatchValue
      (object, setProp r.2 object key r.1)
    else if truthy object && truthy (getProp h object key) then
      onMatchAtPath h (nextKey :: rest) (getProp h object key) onMatch shouldClone noMatchValue
    else (noMatchValue, h)

/-- A merge error: the `TypeError` the host raises when `Object.keys` is
applied to `null`/`undefined`, or exhaustion of the recursion fuel (the source
recursion is bounded only by tree depth). -/
inductive JsErr where
  | typeError
  | outOfFuel
deriving DecidableEq

/-- `Object.keys`: throws on `null`/`undefined`; boxed primitive strings
expose their index keys; other primitives have none; arrays list index keys
then named properties; keyed objects list their own enumerable fields
(a react element's tag is symbol-keyed, hence not listed). -/
def objectKeys (h : Heap) (v : Val) : Except JsErr (List String) :=
  match v with
  | .prim .undef => .error .typeError
  | .prim .null => .error .typeError
  | .prim (.str s) => .ok ((List.range s.length).map (fun i => toString i))
  | .prim _ => .ok []
  | .ref a =>
    match h.find a with
    | some (.arrC elems props) =>
      .ok ((List.range elems.length).map (fun i => toString i) ++ props.map Prod.fst)
    | some (.objC fields) => .ok (fields.map Prod.fst)
    | some (.customC _ fields) => .ok (fields.map Prod.fst)
    | some (.reactC fields) => .ok (fields.map Prod.fst)
    | some .dateC => .ok []
    | some .regexC => .ok []
    | none => .ok []

/-- The elements of an array value (empty for anything else). -/
def arrayElems (h : Heap) (v : Val) : List Val :=
  match v with
  | .ref a =>
    match h.find a with
    | some (.arrC elems _) => elems
    | _ => []
  | .prim _ => []

/-- `object2.map(cloneIfPossible)` of the array branch of the merge,
left to right. -/
def cloneListIfPossible (h : Heap) : List Val → List Val × Heap
  | [] => ([], h)
  | v :: rest =>
    let c := cloneIfPossible h v
    let r := cloneListIfPossible c.2 rest
    (c.1 :: r.1, r.2)

/-- The inner reduce of the merge: `clone[key] = cloneIfPossible(object1[key])`
over the base keys. -/
def mergeBaseKeys (h : Heap) (object1 cloneRef : Val) : List String → Heap
  | [] => h
  | k :: rest =>
    let v := cloneIfPossible h (getProp h object1 (.name k))
    mergeBaseKeys (setProp v.2 cloneRef (.name k) v.1) object1 cloneRef rest

/-- The outer reduce of the merge, parameterized by the recursive merge:
cloneable override values are merged into the base value at that key, others
overwrite it. -/
def mergeOverrideKeys (rec0 : Heap → Val → Val → Except JsErr (Val × Heap))
    (h : Heap) (object1 object2 cloneRef : Val) : List String → Except JsErr Heap
  | [] => .ok h
  | k :: rest =>
    let v2 := getProp h object2 (.name k)
    if isCloneable h v2 then
      match rec0 h (getProp h object1 (.name k)) v2 with
      | .error e => .error e
      | .ok m =>
        mergeOverrideKeys rec0 (setProp m.2 cloneRef (.name k) m.1) object1 object2 cloneRef rest
    else
      mergeOverrideKeys rec0 (setProp h cloneRef (.name k) v2) object1 object2 cloneRef rest

/-- `getDeeplyMergedObject` of the source, with explicit fuel for the
heap-directed recursion.  Kind disagreement returns `cloneIfPossible` of the
override; two arrays concatenate (base elements by reference, override
elements through `cloneIfPossible`); otherwise the override keys are reduced
over a fresh clone of the base (`Object.keys(object2)` is evaluated before
`Object.keys(object1)`, as in the source). -/
def getDeeplyMergedObject : Nat → Heap → Val → Val → Except JsErr (Val × Heap)
  | 0, _, _, _ => .error .outOfFuel
  | fuel + 1, h, object1, object2 =>
    let isObject1Array := isArray h object1
    if isObject1Array ≠ isArray h object2 then
      .ok (cloneIfPossible h object2)
    else if isObject1Array then
      let mapped := cloneListIfPossible h (arrayElems h object2)
      .ok (mapped.2.alloc (.arrC (arrayElems h object1 ++ mapped.1) []))
    else
      match objectKeys h object2 with
      | .error e => .error e
      | .ok keys2 =>
        match objectKeys h object1 with
        | .error e => .error e
        | .ok keys1 =>
          let c0 := h.alloc (.objC [])
          let h1 := mergeBaseKeys c0.2 object1 c0.1 keys1
          match mergeOverrideKeys (getDeeplyMergedObject fuel) h1 object1 object2 c0.1 keys2 with
          | .error e => .error e
          | .ok h2 => .ok (c0.1, h2)

/-- `getNestedProperty` of the source (for an already-parsed path). -/
def getNestedProperty (h : Heap) (path : List Key) (object : Val) : Val :=
  match path with
  | [] => .prim .undef
  | [key] => if truthy object then getProp h object key else .prim .undef
  | key :: nextKey :: rest =>
    (onMatchAtPath h (key :: nextKey :: rest) object
      (fun h0 ref k => (getProp h0 ref k, h0)) false (.prim .undef)).1

/-- `getDeepClone` of the source (for an already-parsed path): the top-level
clone is a shallow clone of the object when cloneable, else a fresh empty
child for the first key; the walker then runs in write mode. -/
def getDeepClone (h : Heap) (path : List Key) (object : Val)
    (onMatch : Heap → Val → Key → Val × Heap) : Val × Heap :=
  match path with
  | [] => (.prim .undef, h)
  | key :: rest =>
    let tc := if isCloneable h object then getShallowClone h object else getNewEmptyChild h key
    match rest with
    | [] =>
      let r := onMatch tc.2 tc.1 key
      (tc.1, r.2)
    | nextKey :: more => onMatchAtPath tc.2 (key :: nextKey :: more) tc.1 onMatch true (.prim .undef)

/-- `hasNestedProperty` of the source (for an already-parsed path). -/
def hasNestedProperty (h : Heap) (path : List Key) (object : Val) : Bool :=
  match path with
  | [] => false
  | [key] => truthy object && decide (getProp h object key ≠ .prim .undef)
  | key :: nextKey :: rest =>
    match (onMatchAtPath h (key :: nextKey :: rest) object
      (fun h0 ref k => (.prim (.boolV (truthy ref && decide (getProp h0 ref k ≠ .prim .undef))), h0))
      false (.prim (.boolV false))).1 with
    | .prim (.boolV b) => b
    | _ => false

/-- Modelled from the spec: the repository's public `set` operation lives in
its `index.js`, which is not among the sources; per the specification it is
`getDeepClone` with a terminal callback that assigns the value at the final
key. -/
def setAtPath (h : Heap) (path : List Key) (value object : Val) : Val × Heap :=
  getDeepClone h path object (fun h0 ref key => (value, setProp h0 ref key value))

end Unchanged

namespace Unchanged

/-! ### Basic lemmas about cells, fields and heaps -/

/-- Cells whose properties can be written through `setProp`. -/
def Cell.settable : Cell → Bool
  | .arrC _ _ => true
  | .objC _ => true
  | .customC _ _ => true
  | .reactC _ => true
  | .dateC => false
  | .regexC => false

/-- The empty container the Container Factory builds for a key. -/
def emptyCellForKey : Key → Cell
  | .idx _ => .arrC [] []
  | .name _ => .objC []

/-- Is the key an integer index (`typeof key === 'number'`)? -/
def keyIsIdx : Key → Bool
  | .idx _ => true
  | .name _ => false

/-- Do two keys possibly address the same slot of one container?  Distinct
plain names never do; an integer key aliases the canonical numeral name. -/
def keyAliases (k k' : Key) : Bool :=
  decide (keyName k = keyName k') ||
    ((charKeyIndex k).isSome && decide (charKeyIndex k = charKeyIndex k'))

/-- The terminal callback of the public `set` operation: `ref[key] = value`
(a host assignment expression evaluates to the assigned value). -/
def assignCb (value : Val) : Heap → Val → Key → Val × Heap :=
  fun h ref key => (value, setProp h ref key value)

/-- Iterated raw property lookup along a key sequence, in one fixed heap. -/
def getPath (h : Heap) : Val → List Key → Val
  | v, [] => v
  | v, k :: rest => getPath h (getProp h v k) rest

/-- The claim's characterization of `hasNestedProperty`: every node before the
terminal key is present (present meaning truthy, the reading the code gives
to presence, cf. the short-circuit behavior of the walker) and the terminal
key maps to a defined value. -/
def hasSpecRec (h : Heap) : Val → List Key → Bool
  | _, [] => false
  | root, [k] => truthy root && decide (getProp h root k ≠ .prim .undef)
  | root, k :: nextKey :: rest =>
    truthy root && truthy (getProp h root k) &&
      hasSpecRec h (getProp h root k) (nextKey :: rest)

/-- A container whose shallow clone keeps every slot: a plain object, a
non-plain object with a non-native constructor (cloned field by field onto the
same shape), or an array without named properties (a spread drops named
properties, so arrays carrying them lose slots on cloning). -/
def plainClonable (h : Heap) (v : Val) : Bool :=
  match v with
  | .ref a =>
    match h.find a with
    | some (.arrC _ props) => props.isEmpty
    | some (.objC _) => true
    | some (.customC nativeCtor _) => !nativeCtor
    | _ => false
  | .prim _ => false

/-- Along a path, every child the write-walker will visit is a faithfully
cloneable container whose kind matches the key addressing it into its parent
(the condition under which the walker clones instead of discarding). -/
def pathFitsAux (h : Heap) : Val → List Key → Bool
  | _, [] => true
  | _, [_] => true
  | v, k :: nextKey :: rest =>
    plainClonable h (getProp h v k) && (isArray h (getProp h v k) == keyIsIdx nextKey) &&
      pathFitsAux h (getProp h v k) (nextKey :: rest)

/-- The whole path is compatible with faithful cloning: the root itself is a
faithfully cloneable container and every visited child fits its key. -/
def pathFits (h : Heap) (root : Val) (path : List Key) : Bool :=
  plainClonable h root && pathFitsAux h root path

/-- Structural sharing, stated positionally: descending from the old root `o`
(read in the old heap) and the new root `c` (read in the new heap) along the
path, at every level each slot addressed by a key not aliasing the path key
holds the very same value — the same reference for object slots. -/
def offPathShared (hOld hNew : Heap) : Val → Val → List Key → Prop
  | _, _, [] => True
  | o, c, k :: rest =>
    (∀ k', keyAliases k k' = false → getProp hNew c k' = getProp hOld o k') ∧
      offPathShared hOld hNew (getProp hOld o k) (getProp hNew c k) rest

/-- The atomic-type exclusion set of the Cloneability Classifier: `Date` and
`RegExp` instances and react-element-tagged objects. -/
def Cell.isAtomic : Cell → Bool
  | .dateC => true
  | .regexC => true
  | .reactC _ => true
  | .arrC _ _ => false
  | .objC _ => false
  | .customC _ _ => false

theorem findCell_mem {l : List (Nat × Cell)} {a : Nat} {c : Cell}
    (h : findCell l a = some c) : (a, c) ∈ l := by
  induction l with
  | nil => simp [findCell] at h
  | cons p rest ih =>
    obtain ⟨b0, c0⟩ := p
    rw [findCell] at h
    split at h
    · next heq =>
      cases h
      exact heq ▸ List.mem_cons_self _ _
    · exact List.mem_cons_of_mem _ (ih h)

theorem findCell_setCells_ne {l : List (Nat × Cell)} {a b : Nat} {c : Cell}
    (hb : b ≠ a) : findCell (setCells l a c) b = findCell l b := by
  induction l with
  | nil => rfl
  | cons p rest ih =>
    rw [setCells]
    split
    · next heq =>
      rw [findCell, findCell, if_neg, if_neg]
      · exact fun h => hb (h ▸ heq)
      · exact fun h => hb h.symm
    · rw [findCell, findCell]
      split
      · rfl
      · exact ih

theorem findCell_setCells_self {l : List (Nat × Cell)} {a : Nat} {c0 c : Cell}
    (h : findCell l a = some c0) : findCell (setCells l a c) a = some c := by
  induction l with
  | nil => simp [findCell] at h
  | cons p rest ih =>
    rw [findCell] at h
    rw [setCells]
    split at h
    · next heq =>
      rw [if_pos heq, findCell, if_pos rfl]
    · next hne =>
      rw [if_neg hne, findCell, if_neg hne]
      exact ih h

theorem Heap.find_lt_next {h : Heap} {a : Nat} {c : Cell}
    (hwf : h.wfB = true) (hf : h.find a = some c) : a < h.next := by
  have hm := findCell_mem hf
  have := (List.all_eq_true.mp hwf) _ hm
  exact of_decide_eq_true this

theorem Heap.find_alloc_self (h : Heap) (c : Cell) : (h.alloc c).2.find h.next = some c := by
  simp [Heap.alloc, Heap.find, findCell]

theorem Heap.find_alloc_ne (h : Heap) (c : Cell) {b : Nat} (hb : b ≠ h.next) :
    (h.alloc c).2.find b = h.find b := by
  show (if h.next = b then some c else findCell h.cells b) = findCell h.cells b
  rw [if_neg (fun hx => hb hx.symm)]

theorem Heap.find_set_ne (h : Heap) (a : Nat) (c : Cell) {b : Nat} (hb : b ≠ a) :
    (h.set a c).find b = h.find b :=
  findCell_setCells_ne hb

theorem Heap.find_set_self (h : Heap) {a : Nat} {c0 : Cell} (c : Cell)
    (hf : h.find a = some c0) : (h.set a c).find a = some c :=
  findCell_setCells_self hf

theorem lookupField_setField_self (l : List (String × Val)) (k : String) (x : Val) :
    lookupField (setField l k x) k = some x := by
  induction l with
  | nil => simp [setField, lookupField]
  | cons p rest ih =>
    rw [setField]
    split
    · rw [lookupField, if_pos rfl]
    · next hne =>
      rw [lookupField, if_neg hne]
      exact ih

theorem lookupField_setField_ne (l : List (String × Val)) {k k' : String} (x : Val)
    (hne : k' ≠ k) : lookupField (setField l k x) k' = lookupField l k' := by
  induction l with
  | nil =>
    show (if k = k' then some x else none) = none
    rw [if_neg (fun hx => hne hx.symm)]
  | cons p rest ih =>
    rw [setField]
    split
    · next heq =>
      rw [lookupField, lookupField, if_neg, if_neg]
      · exact fun hx => hne (hx ▸ heq)
      · exact fun hx => hne hx.symm
    · rw [lookupField, lookupField]
      split
      · rfl
      · exact ih

theorem listGetD_listSet_self (l : List Val) (n : Nat) (x : Val) :
    listGetD (listSet l n x) n = x := by
  induction l generalizing n with
  | nil =>
    induction n with
    | zero => rfl
    | succ m ihm => simpa [listSet, listGetD] using ihm
  | cons e rest ih =>
    cases n with
    | zero => rfl
    | succ m => simpa [listSet, listGetD] using ih m

theorem listGetD_listSet_ne (l : List Val) {m n : Nat} (x : Val) (hne : m ≠ n) :
    listGetD (listSet l n x) m = listGetD l m := by
  induction l generalizing m n with
  | nil =>
    induction n generalizing m with
    | zero =>
      cases m with
      | zero => exact absurd rfl hne
      | succ m0 => rfl
    | succ n0 ihn =>
      cases m with
      | zero => rfl
      | succ m0 => simpa [listSet, listGetD] using ihn (fun hx => hne (by rw [hx]))
  | cons e rest ih =>
    cases n with
    | zero =>
      cases m with
      | zero => exact absurd rfl hne
      | succ m0 => rfl
    | succ n0 =>
      cases m with
      | zero => rfl
      | succ m0 => simpa [listSet, listGetD] using ih (fun hx => hne (by rw [hx]))

end Unchanged

namespace Unchanged

/-! ### Frame and congruence lemmas for property access -/

theorem setProp_next (h : Heap) (v : Val) (k : Key) (x : Val) :
    (setProp h v k x).next = h.next := by
  unfold setProp
  split
  · rfl
  · split <;> (try split) <;> rfl

theorem setProp_find_other (h : Heap) (v : Val) (k : Key) (x : Val) {b : Nat}
    (hb : ∀ a, v = Val.ref a → b ≠ a) : (setProp h v k x).find b = h.find b := by
  cases v with
  | prim p => rfl
  | ref a =>
    have hba : b ≠ a := hb a rfl
    rcases hf : h.find a with _ | c
    · simp [setProp, hf]
    · cases c <;> simp only [setProp, hf] <;> (try split) <;>
        first
          | rfl
          | exact Heap.find_set_ne h _ _ hba

theorem getProp_congr {h h' : Heap} {v : Val} (k : Key)
    (hv : ∀ a, v = Val.ref a → h'.find a = h.find a) : getProp h' v k = getProp h v k := by
  cases v with
  | prim p => cases p <;> rfl
  | ref a => simp only [getProp, hv a rfl]

theorem isCloneable_congr {h h' : Heap} {v : Val}
    (hv : ∀ a, v = Val.ref a → h'.find a = h.find a) : isCloneable h' v = isCloneable h v := by
  cases v with
  | prim p => rfl
  | ref a => simp only [isCloneable, hv a rfl]

theorem isArray_congr {h h' : Heap} {v : Val}
    (hv : ∀ a, v = Val.ref a → h'.find a = h.find a) : isArray h' v = isArray h v := by
  cases v with
  | prim p => rfl
  | ref a => simp only [isArray, hv a rfl]

/-! ### Coherence of property reads after writes -/

theorem getProp_setProp_self {h : Heap} {a : Nat} {c : Cell} (k : Key) (x : Val)
    (hf : h.find a = some c) (hs : c.settable = true) :
    getProp (setProp h (.ref a) k x) (.ref a) k = x := by
  cases c with
  | arrC elems props =>
    rcases hk : charKeyIndex k with _ | n
    · simp only [setProp, hf, hk]
      simp only [getProp, Heap.find_set_self h _ hf, hk]
      rw [lookupField_setField_self]
      rfl
    · simp only [setProp, hf, hk]
      simp only [getProp, Heap.find_set_self h _ hf, hk]
      exact listGetD_listSet_self elems n x
  | objC fields =>
    simp only [setProp, hf]
    simp only [getProp, Heap.find_set_self h _ hf]
    rw [lookupField_setField_self]
    rfl
  | customC nc fields =>
    simp only [setProp, hf]
    simp only [getProp, Heap.find_set_self h _ hf]
    rw [lookupField_setField_self]
    rfl
  | reactC fields =>
    simp only [setProp, hf]
    simp only [getProp, Heap.find_set_self h _ hf]
    rw [lookupField_setField_self]
    rfl
  | dateC => simp [Cell.settable] at hs
  | regexC => simp [Cell.settable] at hs

theorem keyAliases_name {k k' : Key} (h : keyAliases k k' = false) :
    keyName k' ≠ keyName k := by
  intro hx
  simp [keyAliases, hx.symm] at h

theorem keyAliases_index {k k' : Key} (h : keyAliases k k' = false) {n : Nat}
    (hn : charKeyIndex k = some n) : charKeyIndex k' ≠ some n := by
  intro hx
  rw [keyAliases, hn] at h
  simp [hx] at h

theorem getProp_setProp_other {h : Heap} {a : Nat} {c : Cell} (k k' : Key) (x : Val)
    (hf : h.find a = some c) (hs : c.settable = true) (hne : keyAliases k k' = false) :
    getProp (setProp h (.ref a) k x) (.ref a) k' = getProp h (.ref a) k' := by
  cases c with
  | arrC elems props =>
    rcases hk : charKeyIndex k with _ | n
    · simp only [setProp, hf, hk]
      simp only [getProp, Heap.find_set_self h _ hf, hf]
      rcases hk' : charKeyIndex k' with _ | m
      · rw [lookupField_setField_ne _ _ (keyAliases_name hne)]
      · rfl
    · simp only [setProp, hf, hk]
      simp only [getProp, Heap.find_set_self h _ hf, hf]
      rcases hk' : charKeyIndex k' with _ | m
      · rfl
      · refine listGetD_listSet_ne elems x (fun hx => ?_)
        exact keyAliases_index hne hk (by rw [hk', hx])
  | objC fields =>
    simp only [setProp, hf]
    simp only [getProp, Heap.find_set_self h _ hf, hf]
    rw [lookupField_setField_ne _ _ (keyAliases_name hne)]
  | customC nc fields =>
    simp only [setProp, hf]
    simp only [getProp, Heap.find_set_self h _ hf, hf]
    rw [lookupField_setField_ne _ _ (keyAliases_name hne)]
  | reactC fields =>
    simp only [setProp, hf]
    simp only [getProp, Heap.find_set_self h _ hf, hf]
    rw [lookupField_setField_ne _ _ (keyAliases_name hne)]
  | dateC => simp [Cell.settable] at hs
  | regexC => simp [Cell.settable] at hs

/-! ### Freshness of the Container Factory's results -/

theorem isCloneable_cases {h : Heap} {v : Val} (hc : isCloneable h v = true) :
    ∃ a, v = Val.ref a ∧
      ((∃ e p, h.find a = some (.arrC e p)) ∨ (∃ f, h.find a = some (.objC f)) ∨
        (∃ nc f, h.find a = some (.customC nc f))) := by
  cases v with
  | prim p => simp [isCloneable] at hc
  | ref a =>
    refine ⟨a, rfl, ?_⟩
    rcases hf : h.find a with _ | c
    · rw [isCloneable, hf] at hc
      cases hc
    · cases c <;> rw [isCloneable, hf] at hc <;> first
        | exact Or.inl ⟨_, _, rfl⟩
        | exact Or.inr (Or.inl ⟨_, rfl⟩)
        | exact Or.inr (Or.inr ⟨_, _, rfl⟩)
        | cases hc

theorem getShallowClone_of_cloneable {h : Heap} {v : Val} (hc : isCloneable h v = true) :
    ∃ c, getShallowClone h v = h.alloc c ∧ c.settable = true := by
  obtain ⟨a, rfl, hcase⟩ := isCloneable_cases hc
  rcases hcase with ⟨e, p, hf⟩ | ⟨f, hf⟩ | ⟨nc, f, hf⟩
  · exact ⟨.arrC e [], by rw [getShallowClone, hf], rfl⟩
  · exact ⟨.objC f, by rw [getShallowClone, hf], rfl⟩
  · cases nc with
    | true => exact ⟨.objC [], by rw [getShallowClone, hf]; rfl, rfl⟩
    | false => exact ⟨.customC false f, by rw [getShallowClone, hf]; rfl, rfl⟩

theorem cloneIfPossible_of_cloneable {h : Heap} {v : Val} (hc : isCloneable h v = true) :
    ∃ c, cloneIfPossible h v = h.alloc c ∧ c.settable = true := by
  rw [cloneIfPossible, if_pos hc]
  exact getShallowClone_of_cloneable hc

theorem cloneIfPossible_of_not {h : Heap} {v : Val} (hc : isCloneable h v = false) :
    cloneIfPossible h v = (v, h) := by
  rw [cloneIfPossible, if_neg]
  rw [hc]
  exact Bool.false_ne_true

theorem getNewEmptyChild_eq (h : Heap) (k : Key) :
    getNewEmptyChild h k = h.alloc (emptyCellForKey k) := by
  cases k <;> rfl

theorem emptyCellForKey_settable (k : Key) : (emptyCellForKey k).settable = true := by
  cases k <;> rfl

theorem topClone_spec (h : Heap) (object : Val) (key : Key) :
    ∃ c, (if isCloneable h object then getShallowClone h object else getNewEmptyChild h key)
        = h.alloc c ∧ c.settable = true := by
  by_cases hc : isCloneable h object
  · simpa [hc] using getShallowClone_of_cloneable hc
  · exact ⟨emptyCellForKey key, by rw [if_neg hc, getNewEmptyChild_eq], emptyCellForKey_settable key⟩

theorem getNewChildClone_fresh (h : Heap) (v : Val) (k : Key) :
    ∃ a' c', (getNewChildClone h v k).1 = Val.ref a' ∧ h.next ≤ a' ∧
      a' < (getNewChildClone h v k).2.next ∧ (getNewChildClone h v k).2.find a' = some c' ∧
      c'.settable = true ∧ h.next ≤ (getNewChildClone h v k).2.next ∧
      ∀ b, b < h.next → (getNewChildClone h v k).2.find b = h.find b := by
  rw [getNewChildClone, getNewEmptyChild_eq]
  cases hc : isCloneable (h.alloc (emptyCellForKey k)).2 v with
  | true =>
    by_cases ha :
      isArray (h.alloc (emptyCellForKey k)).2 v
        = isArray (h.alloc (emptyCellForKey k)).2 (h.alloc (emptyCellForKey k)).1
    · rw [if_neg (by simp), if_pos (by simp [ha])]
      obtain ⟨c, hcl, hcs⟩ := cloneIfPossible_of_cloneable hc
      rw [hcl]
      refine ⟨h.next + 1, c, rfl, Nat.le_succ _, Nat.lt_succ_self _,
        Heap.find_alloc_self _ c, hcs, Nat.le_add_right _ 2, ?_⟩
      intro b hb
      have hb1 : b ≠ h.next + 1 := by omega
      have hb0 : b ≠ h.next := by omega
      exact (Heap.find_alloc_ne _ c hb1).trans (Heap.find_alloc_ne _ _ hb0)
    · rw [if_neg (by simp), if_neg (by simpa using ha)]
      refine ⟨h.next, emptyCellForKey k, rfl, Nat.le_refl _, Nat.lt_succ_self _,
        Heap.find_alloc_self _ _, emptyCellForKey_settable k, Nat.le_succ _, ?_⟩
      intro b hb
      exact Heap.find_alloc_ne _ _ (by omega)
  | false =>
    rw [if_pos (by simp)]
    refine ⟨h.next, emptyCellForKey k, rfl, Nat.le_refl _, Nat.lt_succ_self _,
      Heap.find_alloc_self _ _, emptyCellForKey_settable k, Nat.le_succ _, ?_⟩
    intro b hb
    exact Heap.find_alloc_ne _ _ (by omega)

end Unchanged

namespace Unchanged

/-! ### One-step unfolding of the path walker -/

theorem setAtPath_eq (h : Heap) (path : List Key) (value object : Val) :
    setAtPath h path value object = getDeepClone h path object (assignCb value) := rfl

theorem onMatchAtPath_single_write (h : Heap) (key : Key) (object : Val)
    (onMatch : Heap → Val → Key → Val × Heap) (nm : Val) :
    onMatchAtPath h [key] object onMatch true nm = (object, (onMatch h object key).2) := by
  rw [onMatchAtPath]
  simp

theorem onMatchAtPath_cons_write (h : Heap) (key nextKey : Key) (rest : List Key)
    (object : Val) (onMatch : Heap → Val → Key → Val × Heap) (nm : Val) :
    onMatchAtPath h (key :: nextKey :: rest) object onMatch true nm =
      (object,
        setProp
          (onMatchAtPath (getNewChildClone h (getProp h object key) nextKey).2 (nextKey :: rest)
            (getNewChildClone h (getProp h object key) nextKey).1 onMatch true nm).2
          object key
          (onMatchAtPath (getNewChildClone h (getProp h object key) nextKey).2 (nextKey :: rest)
            (getNewChildClone h (getProp h object key) nextKey).1 onMatch true nm).1) := by
  rw [onMatchAtPath]
  simp

theorem onMatchAtPath_single_read (h : Heap) (key : Key) (object : Val)
    (onMatch : Heap → Val → Key → Val × Heap) (nm : Val) :
    onMatchAtPath h [key] object onMatch false nm =
      if truthy object then onMatch h object key else (nm, h) := by
  rw [onMatchAtPath]
  cases ht : truthy object <;> simp [ht]

theorem onMatchAtPath_cons_read (h : Heap) (key nextKey : Key) (rest : List Key)
    (object : Val) (onMatch : Heap → Val → Key → Val × Heap) (nm : Val) :
    onMatchAtPath h (key :: nextKey :: rest) object onMatch false nm =
      if truthy object && truthy (getProp h object key) then
        onMatchAtPath h (nextKey :: rest) (getProp h object key) onMatch false nm
      else (nm, h) := by
  rw [onMatchAtPath]
  simp

/-! ### The write-mode walker only touches fresh cells -/

theorem onMatchAtPath_write_frame (V : Val) (path : List Key) :
    ∀ (h : Heap) (a n : Nat), path ≠ [] → n ≤ a → n ≤ h.next →
      (onMatchAtPath h path (Val.ref a) (assignCb V) true (.prim .undef)).1 = Val.ref a ∧
      h.next ≤ (onMatchAtPath h path (Val.ref a) (assignCb V) true (.prim .undef)).2.next ∧
      ∀ b, b < n →
        (onMatchAtPath h path (Val.ref a) (assignCb V) true (.prim .undef)).2.find b
          = h.find b := by
  induction path with
  | nil =>
    intro h a n hne _ _
    exact absurd rfl hne
  | cons key rest ih =>
    intro h a n _ hna hnh
    cases rest with
    | nil =>
      rw [onMatchAtPath_single_write]
      refine ⟨rfl, ?_, ?_⟩
      · rw [show ((assignCb V) h (Val.ref a) key).2 = setProp h (Val.ref a) key V from rfl]
        rw [setProp_next]
      · intro b hb
        rw [show ((assignCb V) h (Val.ref a) key).2 = setProp h (Val.ref a) key V from rfl]
        exact setProp_find_other h _ key V (fun a0 ha0 => by
          cases ha0
          omega)
    | cons nextKey more =>
      rw [onMatchAtPath_cons_write]
      obtain ⟨a', c', hcc1, ha', _, _, _, hccnext, hccframe⟩ :=
        getNewChildClone_fresh h (getProp h (Val.ref a) key) nextKey
      rw [hcc1]
      obtain ⟨hr1, hrnext, hrframe⟩ :=
        ih (getNewChildClone h (getProp h (Val.ref a) key) nextKey).2 a' n (by simp)
          (le_trans hnh ha') (le_trans hnh hccnext)
      refine ⟨rfl, ?_, ?_⟩
      · rw [setProp_next]
        exact le_trans hccnext hrnext
      · intro b hb
        rw [setProp_find_other _ _ key _ (fun a0 ha0 => by
          cases ha0
          omega)]
        rw [hrframe b hb]
        exact hccframe b (lt_of_lt_of_le hb hnh)

end Unchanged

namespace Unchanged

theorem find_fresh_none {h : Heap} (hwf : h.wfB = true) : h.find h.next = none := by
  rcases hf : h.find h.next with _ | c
  · rfl
  · exact absurd (Heap.find_lt_next hwf hf) (lt_irrefl _)

/-- C1: `setAtPath` (the public write, `getDeepClone` with an assigning
terminal callback) leaves every cell allocated before the call — in
particular every node reachable from the caller's root — exactly as it was,
and returns a reference freshly allocated by the call, never a pre-existing
node. -/
theorem setAtPath_immutable (h : Heap) (path : List Key) (V root : Val)
    (hwf : h.wfB = true) (hne : path ≠ []) :
    (∀ a c, h.find a = some c → (setAtPath h path V root).2.find a = some c) ∧
    ∃ r, (setAtPath h path V root).1 = Val.ref r ∧ h.find r = none := by
  rw [setAtPath_eq]
  cases path with
  | nil => exact absurd rfl hne
  | cons key rest =>
    obtain ⟨ct, htc, _⟩ := topClone_spec h root key
    cases rest with
    | nil =>
      simp only [getDeepClone, htc]
      constructor
      · intro a c hfc
        have ha : a < h.next := Heap.find_lt_next hwf hfc
        rw [show ((assignCb V) (h.alloc ct).2 (h.alloc ct).1 key).2
            = setProp (h.alloc ct).2 (h.alloc ct).1 key V from rfl]
        rw [setProp_find_other _ _ key V (fun a0 ha0 => by
          rw [show (h.alloc ct).1 = Val.ref h.next from rfl] at ha0
          cases ha0
          omega)]
        rw [Heap.find_alloc_ne _ _ (by omega)]
        exact hfc
      · exact ⟨h.next, rfl, find_fresh_none hwf⟩
    | cons nextKey more =>
      simp only [getDeepClone, htc]
      obtain ⟨hr1, _, hframe⟩ :=
        onMatchAtPath_write_frame V (key :: nextKey :: more) (h.alloc ct).2 h.next h.next
          (by simp) (Nat.le_refl _) (Nat.le_succ _)
      constructor
      · intro a c hfc
        have ha : a < h.next := Heap.find_lt_next hwf hfc
        rw [show (h.alloc ct).1 = Val.ref h.next from rfl]
        rw [hframe a ha, Heap.find_alloc_ne _ _ (by omega)]
        exact hfc
      · exact ⟨h.next, hr1, find_fresh_none hwf⟩

/-- Witness for C1: the concrete tree T = `{a: {b: 1}, c: {d: 2}}` with
P = `['a','b']`, V = `99`. -/
theorem setAtPath_immutable_witness :
    (Heap.wfB ⟨[(0, .objC [("a", .ref 1), ("c", .ref 2)]),
                (1, .objC [("b", .prim (.num 1))]),
                (2, .objC [("d", .prim (.num 2))])], 3⟩ = true) ∧
    ([Key.name "a", Key.name "b"] ≠ ([] : List Key)) ∧
    ((∀ a c,
        (⟨[(0, .objC [("a", .ref 1), ("c", .ref 2)]),
           (1, .objC [("b", .prim (.num 1))]),
           (2, .objC [("d", .prim (.num 2))])], 3⟩ : Heap).find a = some c →
        (setAtPath ⟨[(0, .objC [("a", .ref 1), ("c", .ref 2)]),
                     (1, .objC [("b", .prim (.num 1))]),
                     (2, .objC [("d", .prim (.num 2))])], 3⟩
          [Key.name "a", Key.name "b"] (.prim (.num 99)) (.ref 0)).2.find a = some c) ∧
      ∃ r,
        (setAtPath ⟨[(0, .objC [("a", .ref 1), ("c", .ref 2)]),
                     (1, .objC [("b", .prim (.num 1))]),
                     (2, .objC [("d", .prim (.num 2))])], 3⟩
          [Key.name "a", Key.name "b"] (.prim (.num 99)) (.ref 0)).1 = Val.ref r ∧
        (⟨[(0, .objC [("a", .ref 1), ("c", .ref 2)]),
           (1, .objC [("b", .prim (.num 1))]),
           (2, .objC [("d", .prim (.num 2))])], 3⟩ : Heap).find r = none) :=
  ⟨by decide, by decide,
    setAtPath_immutable _ [Key.name "a", Key.name "b"] (.prim (.num 99)) (.ref 0)
      (by decide) (by decide)⟩

end Unchanged

namespace Unchanged

/-! ### Reading back a freshly written path -/

theorem onMatchAtPath_write_read (V : Val) (path : List Key) :
    ∀ (h : Heap) (a : Nat) (c : Cell), path ≠ [] → h.find a = some c → c.settable = true →
      a < h.next →
      ∀ g : Heap,
        (∀ b, a ≤ b →
          g.find b
            = (onMatchAtPath h path (Val.ref a) (assignCb V) true (.prim .undef)).2.find b) →
        (onMatchAtPath g path (Val.ref a)
          (fun h0 ref k => (getProp h0 ref k, h0)) false (.prim .undef)).1 = V := by
  induction path with
  | nil =>
    intro h a c hne
    exact absurd rfl hne
  | cons key rest ih =>
    intro h a c _ hfind hset ha g hag
    cases rest with
    | nil =>
      rw [onMatchAtPath_single_read, if_pos (show truthy (Val.ref a) = true from rfl)]
      have hga : ∀ a0, (Val.ref a : Val) = Val.ref a0 →
          g.find a0 = (setProp h (Val.ref a) key V).find a0 := by
        intro a0 ha0
        cases ha0
        exact hag a (Nat.le_refl a)
      calc getProp g (Val.ref a) key
          = getProp (setProp h (Val.ref a) key V) (Val.ref a) key := getProp_congr key hga
        _ = V := getProp_setProp_self key V hfind hset
    | cons nextKey more =>
      rw [onMatchAtPath_cons_read]
      obtain ⟨a', c', hcc1, ha'ge, ha'lt, hccfind, hccset, hccnext, hccframe⟩ :=
        getNewChildClone_fresh h (getProp h (Val.ref a) key) nextKey
      have hwcons := onMatchAtPath_cons_write h key nextKey more (Val.ref a) (assignCb V)
        (.prim .undef)
      rw [hcc1] at hwcons
      obtain ⟨hr1, _, hrframe⟩ :=
        onMatchAtPath_write_frame V (nextKey :: more)
          (getNewChildClone h (getProp h (Val.ref a) key) nextKey).2 a' (a + 1)
          (by simp) (by omega) (by omega)
      have hra : (onMatchAtPath (getNewChildClone h (getProp h (Val.ref a) key) nextKey).2
          (nextKey :: more) (Val.ref a') (assignCb V) true (.prim .undef)).2.find a
          = some c := by
        rw [hrframe a (by omega), hccframe a ha]
        exact hfind
      have hgread : getProp g (Val.ref a) key = Val.ref a' := by
        have hga : ∀ a0, (Val.ref a : Val) = Val.ref a0 →
            g.find a0
              = (onMatchAtPath h (key :: nextKey :: more) (Val.ref a) (assignCb V) true
                  (.prim .undef)).2.find a0 := by
          intro a0 ha0
          cases ha0
          exact hag a (Nat.le_refl a)
        rw [getProp_congr key hga, hwcons, hr1]
        exact getProp_setProp_self key _ hra hset
      rw [hgread, if_pos (show (truthy (Val.ref a) && truthy (Val.ref a')) = true from rfl)]
      refine ih (getNewChildClone h (getProp h (Val.ref a) key) nextKey).2 a' c' (by simp)
        hccfind hccset ha'lt g ?_
      intro b hb
      rw [hag b (by omega), hwcons]
      rw [setProp_find_other _ _ key _ (fun a0 ha0 => by
        cases ha0
        omega)]

end Unchanged

namespace Unchanged

/-- C3: round-trip — reading a path immediately after writing it yields the
written value itself, with strict (reference) equality, for every non-empty
path, every value, and every tree. -/
theorem get_setAtPath_roundtrip (h : Heap) (path : List Key) (V root : Val)
    (hne : path ≠ []) :
    getNestedProperty (setAtPath h path V root).2 path (setAtPath h path V root).1 = V := by
  rw [setAtPath_eq]
  cases path with
  | nil => exact absurd rfl hne
  | cons key rest =>
    obtain ⟨ct, htc, hctset⟩ := topClone_spec h root key
    cases rest with
    | nil =>
      simp only [getDeepClone, htc]
      rw [getNestedProperty]
      rw [if_pos (show truthy (h.alloc ct).1 = true from rfl)]
      exact getProp_setProp_self key V (Heap.find_alloc_self h ct) hctset
    | cons nextKey more =>
      simp only [getDeepClone, htc]
      obtain ⟨hr1, _, _⟩ :=
        onMatchAtPath_write_frame V (key :: nextKey :: more) (h.alloc ct).2 h.next h.next
          (by simp) (Nat.le_refl _) (Nat.le_succ _)
      rw [getNestedProperty]
      rw [show (h.alloc ct).1 = Val.ref h.next from rfl, hr1]
      exact onMatchAtPath_write_read V (key :: nextKey :: more) (h.alloc ct).2 h.next ct
        (by simp) (Heap.find_alloc_self h ct) hctset (Nat.lt_succ_self _) _
        (fun b _ => rfl)

/-- Witness for C3 at T = `{a: {b: 1}, c: {d: 2}}`, P = `['a','b']`, V = `99`. -/
theorem get_setAtPath_roundtrip_witness :
    ([Key.name "a", Key.name "b"] ≠ ([] : List Key)) ∧
    getNestedProperty
      (setAtPath ⟨[(0, .objC [("a", .ref 1), ("c", .ref 2)]),
                   (1, .objC [("b", .prim (.num 1))]),
                   (2, .objC [("d", .prim (.num 2))])], 3⟩
        [Key.name "a", Key.name "b"] (.prim (.num 99)) (.ref 0)).2
      [Key.name "a", Key.name "b"]
      (setAtPath ⟨[(0, .objC [("a", .ref 1), ("c", .ref 2)]),
                   (1, .objC [("b", .prim (.num 1))]),
                   (2, .objC [("d", .prim (.num 2))])], 3⟩
        [Key.name "a", Key.name "b"] (.prim (.num 99)) (.ref 0)).1 = .prim (.num 99) :=
  ⟨by decide,
    get_setAtPath_roundtrip _ [Key.name "a", Key.name "b"] (.prim (.num 99)) (.ref 0)
      (by decide)⟩

end Unchanged

namespace Unchanged

theorem isArray_ref (h : Heap) (a : Nat) :
    isArray h (Val.ref a)
      = match h.find a with
        | some (Cell.arrC _ _) => true
        | _ => false := rfl

theorem isArray_fresh_empty (h : Heap) (k : Key) :
    isArray (h.alloc (emptyCellForKey k)).2 (h.alloc (emptyCellForKey k)).1 = keyIsIdx k := by
  cases k with
  | idx n =>
    show isArray (h.alloc (Cell.arrC [] [])).2 (Val.ref h.next) = true
    rw [isArray_ref, Heap.find_alloc_self]
  | name s =>
    show isArray (h.alloc (Cell.objC [])).2 (Val.ref h.next) = false
    rw [isArray_ref, Heap.find_alloc_self]

/-- C4: when an existing child is cloneable but its container kind disagrees
with the kind the next key implies, `getNewChildClone` discards it for the
fresh empty container of the next key's kind; concretely,
`setAtPath(['x','y'], 1, {x: [1,2,3]})` yields `{x: {y: 1}}`, replacing the
array wholesale. -/
theorem getNewChildClone_kind_mismatch :
    (∀ (h : Heap) (v : Val) (k : Key), h.wfB = true → isCloneable h v = true →
      isArray h v ≠ keyIsIdx k → getNewChildClone h v k = getNewEmptyChild h k) ∧
    ((setAtPath ⟨[(0, .objC [("x", .ref 1)]),
        (1, .arrC [.prim (.num 1), .prim (.num 2), .prim (.num 3)] [])], 2⟩
        [Key.name "x", Key.name "y"] (.prim (.num 1)) (.ref 0)).1 = Val.ref 2 ∧
      (setAtPath ⟨[(0, .objC [("x", .ref 1)]),
        (1, .arrC [.prim (.num 1), .prim (.num 2), .prim (.num 3)] [])], 2⟩
        [Key.name "x", Key.name "y"] (.prim (.num 1)) (.ref 0)).2.find 2
        = some (.objC [("x", .ref 3)]) ∧
      (setAtPath ⟨[(0, .objC [("x", .ref 1)]),
        (1, .arrC [.prim (.num 1), .prim (.num 2), .prim (.num 3)] [])], 2⟩
        [Key.name "x", Key.name "y"] (.prim (.num 1)) (.ref 0)).2.find 3
        = some (.objC [("y", .prim (.num 1))])) := by
  constructor
  · intro h v k hwf hc hk
    have hex := isCloneable_cases hc
    obtain ⟨a, rfl, hcase⟩ := hex
    have ha : a < h.next := by
      rcases hcase with ⟨e, p, hf⟩ | ⟨f, hf⟩ | ⟨nc, f, hf⟩ <;> exact Heap.find_lt_next hwf hf
    have hfind1 : ∀ a0, (Val.ref a : Val) = Val.ref a0 →
        (h.alloc (emptyCellForKey k)).2.find a0 = h.find a0 := by
      intro a0 h0
      cases h0
      exact Heap.find_alloc_ne _ _ (by omega)
    have hc1 : isCloneable (h.alloc (emptyCellForKey k)).2 (Val.ref a) = true := by
      rw [isCloneable_congr hfind1]
      exact hc
    rw [getNewChildClone, getNewEmptyChild_eq]
    rw [if_neg (by simp [hc1])]
    rw [if_neg (by
      simp only [isArray_fresh_empty, isArray_congr hfind1, beq_iff_eq]
      exact fun hx => hk hx)]
  · exact ⟨by decide, by decide, by decide⟩

/-- Witness for C4: the array child `[1,2,3]` under a name key. -/
theorem getNewChildClone_kind_mismatch_witness :
    ((⟨[(0, .objC [("x", .ref 1)]),
        (1, .arrC [.prim (.num 1), .prim (.num 2), .prim (.num 3)] [])], 2⟩ : Heap).wfB
        = true) ∧
    (isCloneable ⟨[(0, .objC [("x", .ref 1)]),
        (1, .arrC [.prim (.num 1), .prim (.num 2), .prim (.num 3)] [])], 2⟩ (.ref 1) = true) ∧
    (isArray ⟨[(0, .objC [("x", .ref 1)]),
        (1, .arrC [.prim (.num 1), .prim (.num 2), .prim (.num 3)] [])], 2⟩ (.ref 1)
      ≠ keyIsIdx (.name "y")) ∧
    getNewChildClone ⟨[(0, .objC [("x", .ref 1)]),
        (1, .arrC [.prim (.num 1), .prim (.num 2), .prim (.num 3)] [])], 2⟩ (.ref 1)
        (.name "y")
      = getNewEmptyChild ⟨[(0, .objC [("x", .ref 1)]),
          (1, .arrC [.prim (.num 1), .prim (.num 2), .prim (.num 3)] [])], 2⟩ (.name "y") :=
  ⟨by decide, by decide, by decide,
    getNewChildClone_kind_mismatch.1 _ (.ref 1) (.name "y") (by decide) (by decide) (by decide)⟩

/-! ### Existence semantics of `hasNestedProperty` -/

theorem hasNested_walker_eq (h : Heap) (path : List Key) :
    ∀ root, path ≠ [] →
      (match (onMatchAtPath h path root
          (fun h0 ref k =>
            (.prim (.boolV (truthy ref && decide (getProp h0 ref k ≠ .prim .undef))), h0))
          false (.prim (.boolV false))).1 with
        | .prim (.boolV b) => b
        | _ => false) = hasSpecRec h root path := by
  induction path with
  | nil =>
    intro root hne
    exact absurd rfl hne
  | cons key rest ih =>
    intro root _
    cases rest with
    | nil =>
      rw [onMatchAtPath_single_read]
      cases ht : truthy root with
      | false => simp [ht, hasSpecRec]
      | true => simp [ht, hasSpecRec]
    | cons nextKey more =>
      rw [onMatchAtPath_cons_read]
      cases hcond : truthy root && truthy (getProp h root key) with
      | false =>
        rw [hasSpecRec]
        rcases Bool.and_eq_false_iff.mp hcond with hx | hx <;> simp [hx]
      | true =>
        rw [if_pos rfl, hasSpecRec]
        obtain ⟨h1, h2⟩ := Bool.and_eq_true_iff.mp hcond
        rw [h1, h2]
        simpa using ih (getProp h root key) (by simp)

/-- C8: `hasNestedProperty` is true exactly when every node before the
terminal key is present (truthy) and the terminal key maps to a defined
value — the characterization rendered by `hasSpecRec`. -/
theorem hasNestedProperty_iff_spec (h : Heap) (path : List Key) (root : Val)
    (hne : path ≠ []) : hasNestedProperty h path root = hasSpecRec h root path := by
  cases path with
  | nil => exact absurd rfl hne
  | cons key rest =>
    cases rest with
    | nil => rfl
    | cons nextKey more =>
      rw [hasNestedProperty]
      exact hasNested_walker_eq h (key :: nextKey :: more) root (by simp)

/-- Witness for C8: `has(['a','b'], {a: {}})` is false,
`has(['a','b'], {a: {b: undefined}})` is false, and `has(['a'], {a: null})`
is true. -/
theorem hasNestedProperty_iff_spec_witness :
    ([Key.name "a", Key.name "b"] ≠ ([] : List Key)) ∧
    hasNestedProperty ⟨[(0, .objC [("a", .ref 1)]), (1, .objC [])], 2⟩
      [Key.name "a", Key.name "b"] (.ref 0) = false ∧
    hasNestedProperty ⟨[(0, .objC [("a", .ref 1)]), (1, .objC [("b", .prim .undef)])], 2⟩
      [Key.name "a", Key.name "b"] (.ref 0) = false ∧
    hasNestedProperty ⟨[(0, .objC [("a", .prim .null)])], 1⟩ [Key.name "a"] (.ref 0) = true :=
  ⟨by decide,
    by
      rw [hasNestedProperty_iff_spec _ _ _ (by decide)]
      decide,
    by
      rw [hasNestedProperty_iff_spec _ _ _ (by decide)]
      decide,
    by
      rw [hasNestedProperty_iff_spec _ _ _ (by decide)]
      decide⟩

end Unchanged

namespace Unchanged

/-! ### Falsy values short-circuit read-only traversal -/

theorem onMatchAtPath_read_falsy (h : Heap)
    (onMatch : Heap → Val → Key → Val × Heap) (nm : Val) (path : List Key) :
    ∀ root, path ≠ [] →
      (truthy root = false ∨
        ∃ i, i + 1 < path.length ∧ truthy (getPath h root (path.take (i + 1))) = false) →
      (onMatchAtPath h path root onMatch false nm).1 = nm := by
  induction path with
  | nil =>
    intro root hne
    exact absurd rfl hne
  | cons key rest ih =>
    intro root _ hfalsy
    cases rest with
    | nil =>
      have hroot : truthy root = false := by
        rcases hfalsy with hx | ⟨i, hi, _⟩
        · exact hx
        · simp only [List.length_cons, List.length_nil] at hi
          omega
      rw [onMatchAtPath_single_read, if_neg (by rw [hroot]; exact Bool.false_ne_true)]
    | cons nextKey more =>
      rw [onMatchAtPath_cons_read]
      rcases hfalsy with hroot | ⟨i, hi, hval⟩
      · rw [if_neg (by rw [hroot, Bool.false_and]; exact Bool.false_ne_true)]
      · cases i with
        | zero =>
          have hchild : truthy (getProp h root key) = false := by
            simpa [getPath] using hval
          rw [if_neg (by rw [hchild, Bool.and_false]; exact Bool.false_ne_true)]
        | succ j =>
          cases hchild : truthy (getProp h root key) with
          | false =>
            rw [if_neg (by rw [Bool.and_false]; exact Bool.false_ne_true)]
          | true =>
            cases hroot : truthy root with
            | false =>
              rw [if_neg (by rw [Bool.false_and]; exact Bool.false_ne_true)]
            | true =>
              rw [if_pos (show ((true && true : Bool) = true) from rfl)]
              refine ih (getProp h root key) (by simp) (Or.inr ⟨j, ?_, ?_⟩)
              · simpa using hi
              · simpa [List.take_succ_cons, getPath] using hval

/-- C10: in the read-only operations presence means truthiness — when the
root, or the value reached at any proper non-empty prefix of the path, is
falsy, `getNestedProperty` returns `undefined` and `hasNestedProperty`
returns false, even if the falsy value actually carries the terminal
property. -/
theorem read_falsy_short_circuit (h : Heap) (path : List Key) (root : Val)
    (hne : path ≠ [])
    (hfalsy : truthy root = false ∨
      ∃ i, i + 1 < path.length ∧ truthy (getPath h root (path.take (i + 1))) = false) :
    getNestedProperty h path root = .prim .undef ∧ hasNestedProperty h path root = false := by
  cases path with
  | nil => exact absurd rfl hne
  | cons key rest =>
    cases rest with
    | nil =>
      have hroot : truthy root = false := by
        rcases hfalsy with hx | ⟨i, hi, _⟩
        · exact hx
        · simp at hi
      constructor
      · rw [getNestedProperty, if_neg (by rw [hroot]; exact Bool.false_ne_true)]
      · rw [hasNestedProperty, hroot, Bool.false_and]
    | cons nextKey more =>
      constructor
      · rw [getNestedProperty]
        exact onMatchAtPath_read_falsy h _ _ (key :: nextKey :: more) root (by simp) hfalsy
      · rw [hasNestedProperty]
        rw [onMatchAtPath_read_falsy h _ _ (key :: nextKey :: more) root (by simp) hfalsy]

/-- Witness for C10: `has(['a','length'], {a: ''})` is false and
`get(['a','length'], {a: ''})` is `undefined`, although the empty string does
carry a `length` property in the host — the falsy intermediate shortcuts;
also a falsy root with a single-segment path. -/
theorem read_falsy_short_circuit_witness :
    (([Key.name "a", Key.name "length"] : List Key) ≠ []) ∧
    (truthy (getPath ⟨[(0, .objC [("a", .prim (.str ""))])], 1⟩ (.ref 0)
        ([Key.name "a", Key.name "length"].take 1)) = false) ∧
    (getNestedProperty ⟨[(0, .objC [("a", .prim (.str ""))])], 1⟩
        [Key.name "a", Key.name "length"] (.ref 0) = .prim .undef ∧
      hasNestedProperty ⟨[(0, .objC [("a", .prim (.str ""))])], 1⟩
        [Key.name "a", Key.name "length"] (.ref 0) = false) ∧
    (getNestedProperty ⟨[], 0⟩ [Key.name "a"] (.prim .null) = .prim .undef ∧
      hasNestedProperty ⟨[], 0⟩ [Key.name "a"] (.prim .null) = false) :=
  ⟨by decide, by decide,
    read_falsy_short_circuit _ [Key.name "a", Key.name "length"] (.ref 0) (by decide)
      (Or.inr ⟨0, by decide, by decide⟩),
    read_falsy_short_circuit _ [Key.name "a"] (.prim .null) (by decide)
      (Or.inl (by decide))⟩

end Unchanged

namespace Unchanged

/-- C5 (the failing input): merging the override `{a: {x: 1}}` into the base
`{}` recurses at key `a` with an absent base value, reaches `Object.keys` of
`undefined`, and raises a TypeError — for every recursion budget — instead of
treating the absent base value as an identity container and returning
`{a: {x: 1}}` without error. -/
theorem merge_missing_base_throws (fuel : Nat) :
    getDeeplyMergedObject (fuel + 2)
      ⟨[(0, .objC []), (1, .objC [("a", .ref 2)]), (2, .objC [("x", .prim (.num 1))])], 3⟩
      (.ref 0) (.ref 1) = .error .typeError := rfl

/-- C7: when base and override disagree on array-vs-object kind, the merge is
exactly `cloneIfPossible` of the override — no field-level merge: a
non-cloneable override is returned as itself, a cloneable one as a freshly
allocated shallow clone (a reference distinct from every existing node). -/
theorem merge_kind_conflict (fuel : Nat) (h : Heap) (object1 object2 : Val)
    (hwf : h.wfB = true) (hne : isArray h object1 ≠ isArray h object2) :
    getDeeplyMergedObject (fuel + 1) h object1 object2 = .ok (cloneIfPossible h object2) ∧
    (isCloneable h object2 = false → cloneIfPossible h object2 = (object2, h)) ∧
    (isCloneable h object2 = true →
      ∃ c, cloneIfPossible h object2 = h.alloc c ∧ (h.alloc c).1 = Val.ref h.next ∧
        h.find h.next = none) := by
  refine ⟨?_, cloneIfPossible_of_not, ?_⟩
  · rw [getDeeplyMergedObject]
    rw [if_pos hne]
  · intro hc
    obtain ⟨c, hcl, _⟩ := cloneIfPossible_of_cloneable hc
    exact ⟨c, hcl, rfl, find_fresh_none hwf⟩

/-- Witness for C7 at base `{a: 1}` and override `[1, 2]`: the result is a
fresh array clone whose cell holds exactly `[1, 2]`. -/
theorem merge_kind_conflict_witness :
    ((⟨[(0, .objC [("a", .prim (.num 1))]),
        (1, .arrC [.prim (.num 1), .prim (.num 2)] [])], 2⟩ : Heap).wfB = true) ∧
    (isArray ⟨[(0, .objC [("a", .prim (.num 1))]),
        (1, .arrC [.prim (.num 1), .prim (.num 2)] [])], 2⟩ (.ref 0)
      ≠ isArray ⟨[(0, .objC [("a", .prim (.num 1))]),
          (1, .arrC [.prim (.num 1), .prim (.num 2)] [])], 2⟩ (.ref 1)) ∧
    (getDeeplyMergedObject 1 ⟨[(0, .objC [("a", .prim (.num 1))]),
        (1, .arrC [.prim (.num 1), .prim (.num 2)] [])], 2⟩ (.ref 0) (.ref 1)
      = .ok (cloneIfPossible ⟨[(0, .objC [("a", .prim (.num 1))]),
          (1, .arrC [.prim (.num 1), .prim (.num 2)] [])], 2⟩ (.ref 1)) ∧
      (isCloneable ⟨[(0, .objC [("a", .prim (.num 1))]),
          (1, .arrC [.prim (.num 1), .prim (.num 2)] [])], 2⟩ (.ref 1) = false →
        cloneIfPossible ⟨[(0, .objC [("a", .prim (.num 1))]),
            (1, .arrC [.prim (.num 1), .prim (.num 2)] [])], 2⟩ (.ref 1)
          = (.ref 1, ⟨[(0, .objC [("a", .prim (.num 1))]),
              (1, .arrC [.prim (.num 1), .prim (.num 2)] [])], 2⟩)) ∧
      (isCloneable ⟨[(0, .objC [("a", .prim (.num 1))]),
          (1, .arrC [.prim (.num 1), .prim (.num 2)] [])], 2⟩ (.ref 1) = true →
        ∃ c, cloneIfPossible ⟨[(0, .objC [("a", .prim (.num 1))]),
            (1, .arrC [.prim (.num 1), .prim (.num 2)] [])], 2⟩ (.ref 1)
          = Heap.alloc ⟨[(0, .objC [("a", .prim (.num 1))]),
              (1, .arrC [.prim (.num 1), .prim (.num 2)] [])], 2⟩ c ∧
          (Heap.alloc ⟨[(0, .objC [("a", .prim (.num 1))]),
              (1, .arrC [.prim (.num 1), .prim (.num 2)] [])], 2⟩ c).1 = Val.ref 2 ∧
          (⟨[(0, .objC [("a", .prim (.num 1))]),
              (1, .arrC [.prim (.num 1), .prim (.num 2)] [])], 2⟩ : Heap).find 2 = none)) ∧
    (cloneIfPossible ⟨[(0, .objC [("a", .prim (.num 1))]),
        (1, .arrC [.prim (.num 1), .prim (.num 2)] [])], 2⟩ (.ref 1)).2.find 2
      = some (.arrC [.prim (.num 1), .prim (.num 2)] []) :=
  ⟨by decide, by decide,
    merge_kind_conflict 0 _ (.ref 0) (.ref 1) (by decide) (by decide),
    by decide⟩

end Unchanged

namespace Unchanged

theorem find_none_of_ge {h : Heap} (hwf : h.wfB = true) {b : Nat} (hb : h.next ≤ b) :
    h.find b = none := by
  rcases hf : h.find b with _ | c
  · rfl
  · have := Heap.find_lt_next hwf hf
    omega

theorem closed_cell {h : Heap} (hcl : h.closedB = true) {a : Nat} {c : Cell}
    (hf : h.find a = some c) : cellBelow h.next c = true :=
  (List.all_eq_true.mp hcl) _ (findCell_mem hf)

theorem arrC_elems_below {n : Nat} {e : List Val} {p : List (String × Val)}
    (hc : cellBelow n (.arrC e p) = true) : ∀ v ∈ e, valBelow n v = true := by
  rw [cellBelow, Bool.and_eq_true] at hc
  exact fun v hv => (List.all_eq_true.mp hc.1) v hv

theorem valBelow_mono {n m : Nat} (hnm : n ≤ m) {v : Val} (hv : valBelow n v = true) :
    valBelow m v = true := by
  cases v with
  | prim p => rfl
  | ref a =>
    simp only [valBelow, decide_eq_true_eq] at hv ⊢
    omega

theorem isCloneable_alloc_stable {h : Heap} (c : Cell) {v : Val}
    (hv : valBelow h.next v = true) : isCloneable (h.alloc c).2 v = isCloneable h v := by
  cases v with
  | prim p => rfl
  | ref a =>
    simp only [valBelow, decide_eq_true_eq] at hv
    exact isCloneable_congr (fun a0 h0 => by
      cases h0
      exact Heap.find_alloc_ne _ _ (by omega))

theorem listGetD_mem {l : List Val} {i : Nat} (hi : i < l.length) : listGetD l i ∈ l := by
  induction l generalizing i with
  | nil => simp at hi
  | cons x t iht =>
    cases i with
    | zero => exact List.mem_cons_self _ _
    | succ j =>
      exact List.mem_cons_of_mem _ (iht (by
        simp only [List.length_cons] at hi
        omega))

theorem cloneListIfPossible_spec (l : List Val) :
    ∀ h : Heap, (∀ v ∈ l, valBelow h.next v = true) →
      (cloneListIfPossible h l).1.length = l.length ∧
      h.next ≤ (cloneListIfPossible h l).2.next ∧
      (∀ b, b < h.next → (cloneListIfPossible h l).2.find b = h.find b) ∧
      ∀ i, i < l.length → isCloneable h (listGetD l i) = false →
        listGetD (cloneListIfPossible h l).1 i = listGetD l i := by
  induction l with
  | nil =>
    intro h _
    exact ⟨rfl, Nat.le_refl _, fun b _ => rfl, fun i hi => absurd hi (by simp)⟩
  | cons v rest ih =>
    intro h hbelow
    cases hc : isCloneable h v with
    | false =>
      have hcl := cloneIfPossible_of_not hc
      have hunfold : cloneListIfPossible h (v :: rest)
          = (v :: (cloneListIfPossible h rest).1, (cloneListIfPossible h rest).2) := by
        rw [cloneListIfPossible, hcl]
      obtain ⟨hlen, hnext, hframe, hpt⟩ := ih h (fun w hw => hbelow w (List.mem_cons_of_mem _ hw))
      rw [hunfold]
      refine ⟨by simpa using hlen, hnext, hframe, ?_⟩
      intro i hi hci
      cases i with
      | zero => rfl
      | succ j =>
        show listGetD (cloneListIfPossible h rest).1 j = listGetD rest j
        exact hpt j (by simpa using hi) hci
    | true =>
      obtain ⟨c, hcl, _⟩ := cloneIfPossible_of_cloneable hc
      have hunfold : cloneListIfPossible h (v :: rest)
          = ((h.alloc c).1 :: (cloneListIfPossible (h.alloc c).2 rest).1,
             (cloneListIfPossible (h.alloc c).2 rest).2) := by
        rw [cloneListIfPossible, hcl]
      have hbelow1 : ∀ w ∈ rest, valBelow (h.alloc c).2.next w = true := fun w hw =>
        valBelow_mono (Nat.le_succ _) (hbelow w (List.mem_cons_of_mem _ hw))
      obtain ⟨hlen, hnext, hframe, hpt⟩ := ih (h.alloc c).2 hbelow1
      rw [hunfold]
      refine ⟨by simpa using hlen, Nat.le_trans (Nat.le_succ _) hnext, ?_, ?_⟩
      · intro b hb
        rw [hframe b (Nat.lt_succ_of_lt hb)]
        exact Heap.find_alloc_ne _ _ (by omega)
      · intro i hi hci
        cases i with
        | zero => exact absurd hci (by rw [show listGetD (v :: rest) 0 = v from rfl, hc]; simp)
        | succ j =>
          have hj' : j < rest.length := by
            simp only [List.length_cons] at hi
            omega
          show listGetD (cloneListIfPossible (h.alloc c).2 rest).1 j = listGetD rest j
          refine hpt j hj' ?_
          rw [isCloneable_alloc_stable]
          · exact hci
          · exact hbelow _ (List.mem_cons_of_mem _ (listGetD_mem hj'))

end Unchanged

namespace Unchanged

/-- C6: merging two arrays concatenates — the result is a fresh array whose
elements are all of the base's elements (by reference) followed by one value
per override element in order (the override element itself whenever it is not
cloneable), never an index-aligned elementwise merge. -/
theorem merge_sequences_concat (fuel : Nat) (h : Heap) (a1 a2 : Nat)
    (e1 : List Val) (p1 : List (String × Val)) (e2 : List Val) (p2 : List (String × Val))
    (hwf : h.wfB = true) (hcl : h.closedB = true)
    (hf1 : h.find a1 = some (.arrC e1 p1)) (hf2 : h.find a2 = some (.arrC e2 p2)) :
    ∃ r h', getDeeplyMergedObject (fuel + 1) h (.ref a1) (.ref a2) = .ok (Val.ref r, h') ∧
      h.find r = none ∧
      ∃ e2', h'.find r = some (.arrC (e1 ++ e2') []) ∧ e2'.length = e2.length ∧
        ∀ i, i < e2.length → isCloneable h (listGetD e2 i) = false →
          listGetD e2' i = listGetD e2 i := by
  have hA1 : isArray h (.ref a1) = true := by rw [isArray_ref, hf1]
  have hA2 : isArray h (.ref a2) = true := by rw [isArray_ref, hf2]
  have hae1 : arrayElems h (.ref a1) = e1 := by rw [arrayElems, hf1]
  have hae2 : arrayElems h (.ref a2) = e2 := by rw [arrayElems, hf2]
  have hbelow : ∀ v ∈ e2, valBelow h.next v = true :=
    arrC_elems_below (closed_cell hcl hf2)
  obtain ⟨hlen, hnext, _, hpt⟩ := cloneListIfPossible_spec e2 h hbelow
  rw [getDeeplyMergedObject]
  rw [if_neg (by rw [hA1, hA2]; exact fun hx => hx rfl), if_pos hA1, hae1, hae2]
  refine ⟨(cloneListIfPossible h e2).2.next, ((cloneListIfPossible h e2).2.alloc
    (.arrC (e1 ++ (cloneListIfPossible h e2).1) [])).2, rfl,
    find_none_of_ge hwf hnext, (cloneListIfPossible h e2).1,
    Heap.find_alloc_self _ _, hlen, hpt⟩

/-- Witness for C6: `merge([1,2], [3,4])` produces the fresh array
`[1,2,3,4]`. -/
theorem merge_sequences_concat_witness :
    ((⟨[(0, .arrC [.prim (.num 1), .prim (.num 2)] []),
        (1, .arrC [.prim (.num 3), .prim (.num 4)] [])], 2⟩ : Heap).wfB = true) ∧
    ((⟨[(0, .arrC [.prim (.num 1), .prim (.num 2)] []),
        (1, .arrC [.prim (.num 3), .prim (.num 4)] [])], 2⟩ : Heap).closedB = true) ∧
    (∃ r h', getDeeplyMergedObject 1 ⟨[(0, .arrC [.prim (.num 1), .prim (.num 2)] []),
          (1, .arrC [.prim (.num 3), .prim (.num 4)] [])], 2⟩ (.ref 0) (.ref 1)
        = .ok (Val.ref r, h') ∧
      (⟨[(0, .arrC [.prim (.num 1), .prim (.num 2)] []),
         (1, .arrC [.prim (.num 3), .prim (.num 4)] [])], 2⟩ : Heap).find r = none ∧
      ∃ e2', h'.find r
          = some (.arrC ([.prim (.num 1), .prim (.num 2)] ++ e2') []) ∧
        e2'.length = ([.prim (.num 3), .prim (.num 4)] : List Val).length ∧
        ∀ i, i < ([.prim (.num 3), .prim (.num 4)] : List Val).length →
          isCloneable ⟨[(0, .arrC [.prim (.num 1), .prim (.num 2)] []),
              (1, .arrC [.prim (.num 3), .prim (.num 4)] [])], 2⟩
            (listGetD [.prim (.num 3), .prim (.num 4)] i) = false →
          listGetD e2' i = listGetD [.prim (.num 3), .prim (.num 4)] i) ∧
    (getDeeplyMergedObject 1 ⟨[(0, .arrC [.prim (.num 1), .prim (.num 2)] []),
        (1, .arrC [.prim (.num 3), .prim (.num 4)] [])], 2⟩ (.ref 0) (.ref 1)
      = .ok (Val.ref 2, ⟨[(2, .arrC [.prim (.num 1), .prim (.num 2), .prim (.num 3),
          .prim (.num 4)] []),
        (0, .arrC [.prim (.num 1), .prim (.num 2)] []),
        (1, .arrC [.prim (.num 3), .prim (.num 4)] [])], 3⟩)) :=
  ⟨by decide, by decide,
    merge_sequences_concat 0 _ 0 1 [.prim (.num 1), .prim (.num 2)] []
      [.prim (.num 3), .prim (.num 4)] [] (by decide) (by decide) (by decide) (by decide),
    rfl⟩

end Unchanged

namespace Unchanged

theorem setProp_objC {h : Heap} {a : Nat} {f : List (String × Val)} (k : Key) (x : Val)
    (hf : h.find a = some (.objC f)) :
    setProp h (.ref a) k x = h.set a (.objC (setField f (keyName k) x)) := by
  simp only [setProp, hf]

theorem lookupField_single (k : String) (x : Val) : lookupField [(k, x)] k = some x :=
  lookupField_setField_self [] k x

theorem isCloneable_atomic {h : Heap} {av : Nat} {c : Cell}
    (hfv : h.find av = some c) (hatom : c.isAtomic = true) :
    isCloneable h (.ref av) = false := by
  cases c with
  | dateC => rw [isCloneable, hfv]
  | regexC => rw [isCloneable, hfv]
  | reactC f => rw [isCloneable, hfv]
  | arrC e p => simp [Cell.isAtomic] at hatom
  | objC f => simp [Cell.isAtomic] at hatom
  | customC nc f => simp [Cell.isAtomic] at hatom

theorem mergeBaseKeys_fold (object1 : Val) (r : Nat) (keys : List String) :
    ∀ (h : Heap) (f : List (String × Val)), h.find r = some (.objC f) → r < h.next →
      ∃ f', (mergeBaseKeys h object1 (Val.ref r) keys).find r = some (.objC f') ∧
        r < (mergeBaseKeys h object1 (Val.ref r) keys).next ∧
        ∀ b, b < h.next → b ≠ r →
          (mergeBaseKeys h object1 (Val.ref r) keys).find b = h.find b := by
  induction keys with
  | nil =>
    intro h f hf hr
    exact ⟨f, hf, hr, fun b _ _ => rfl⟩
  | cons k rest ih =>
    intro h f hf hr
    cases hc : isCloneable h (getProp h object1 (.name k)) with
    | false =>
      rw [mergeBaseKeys, cloneIfPossible_of_not hc]
      rw [setProp_objC (.name k) _ hf]
      obtain ⟨f', hf', hr', hframe'⟩ :=
        ih (h.set r (.objC (setField f (keyName (.name k)) (getProp h object1 (.name k)))))
          (setField f (keyName (.name k)) (getProp h object1 (.name k)))
          (Heap.find_set_self h _ hf) hr
      refine ⟨f', hf', hr', ?_⟩
      intro b hb hbr
      rw [hframe' b hb hbr]
      exact Heap.find_set_ne h r _ hbr
    | true =>
      obtain ⟨c, hcl, _⟩ := cloneIfPossible_of_cloneable hc
      rw [mergeBaseKeys, hcl]
      have hf1 : (h.alloc c).2.find r = some (.objC f) := by
        rw [Heap.find_alloc_ne _ _ (by omega)]
        exact hf
      rw [setProp_objC (.name k) _ hf1]
      obtain ⟨f', hf', hr', hframe'⟩ :=
        ih ((h.alloc c).2.set r (.objC (setField f (keyName (.name k)) (h.alloc c).1)))
          (setField f (keyName (.name k)) (h.alloc c).1)
          (Heap.find_set_self _ _ hf1) (Nat.lt_succ_of_lt hr)
      refine ⟨f', hf', hr', ?_⟩
      intro b hb hbr
      rw [hframe' b (Nat.lt_succ_of_lt hb) hbr]
      rw [Heap.find_set_ne _ r _ hbr]
      exact Heap.find_alloc_ne _ _ (by omega)

theorem merge_obj_branch (fuel : Nat) (h : Heap) (object1 object2 : Val)
    (keys1 keys2 : List String)
    (hA1 : isArray h object1 = false) (hA2 : isArray h object2 = false)
    (hk2 : objectKeys h object2 = .ok keys2) (hk1 : objectKeys h object1 = .ok keys1) :
    getDeeplyMergedObject (fuel + 1) h object1 object2 =
      match mergeOverrideKeys (getDeeplyMergedObject fuel)
          (mergeBaseKeys (h.alloc (.objC [])).2 object1 (h.alloc (.objC [])).1 keys1)
          object1 object2 (h.alloc (.objC [])).1 keys2 with
      | .error e => .error e
      | .ok h2 => .ok ((h.alloc (.objC [])).1, h2) := by
  rw [getDeeplyMergedObject]
  rw [if_neg (by rw [hA1, hA2]; exact fun hx => hx rfl)]
  rw [if_neg (by rw [hA1]; exact Bool.false_ne_true)]
  rw [hk2, hk1]

/-- C9: an atomic value (a `Date` or `RegExp` instance or a react-element-
tagged object) is not cloneable, `cloneIfPossible` returns it itself with the
heap untouched (never a shallow clone), and the deep merge overwrites the key
holding it with the very same reference instead of merging into it. -/
theorem merge_atomic_overwrite (fuel : Nat) (h : Heap) (a1 a2 av : Nat) (k : String)
    (f1 : List (String × Val)) (c : Cell) (hwf : h.wfB = true)
    (hf1 : h.find a1 = some (.objC f1)) (hf2 : h.find a2 = some (.objC [(k, .ref av)]))
    (hfv : h.find av = some c) (hatom : c.isAtomic = true) :
    isCloneable h (.ref av) = false ∧
    cloneIfPossible h (.ref av) = (.ref av, h) ∧
    ∃ h', getDeeplyMergedObject (fuel + 1) h (.ref a1) (.ref a2)
        = .ok (Val.ref h.next, h') ∧
      getProp h' (Val.ref h.next) (.name k) = .ref av := by
  have hclav : isCloneable h (.ref av) = false := isCloneable_atomic hfv hatom
  have hA1 : isArray h (.ref a1) = false := by rw [isArray_ref, hf1]
  have hA2 : isArray h (.ref a2) = false := by rw [isArray_ref, hf2]
  refine ⟨hclav, cloneIfPossible_of_not hclav, ?_⟩
  have ha1 : a1 < h.next := Heap.find_lt_next hwf hf1
  have ha2 : a2 < h.next := Heap.find_lt_next hwf hf2
  have hav : av < h.next := Heap.find_lt_next hwf hfv
  have hk2 : objectKeys h (.ref a2) = .ok [k] := by rw [objectKeys, hf2]; rfl
  have hk1 : objectKeys h (.ref a1) = .ok (f1.map Prod.fst) := by rw [objectKeys, hf1]
  rw [merge_obj_branch fuel h (.ref a1) (.ref a2) (f1.map Prod.fst) [k] hA1 hA2 hk2 hk1]
  rw [show (h.alloc (Cell.objC ([] : List (String × Val)))).1 = Val.ref h.next from rfl]
  obtain ⟨f', hf', hr', hframe'⟩ :=
    mergeBaseKeys_fold (.ref a1) h.next (f1.map Prod.fst) (h.alloc (.objC [])).2 []
      (Heap.find_alloc_self h _) (Nat.lt_succ_self _)
  have hfind2 :
      (mergeBaseKeys (h.alloc (.objC [])).2 (.ref a1) (Val.ref h.next) (f1.map Prod.fst)).find a2
        = some (.objC [(k, .ref av)]) := by
    rw [hframe' a2 (Nat.lt_succ_of_lt ha2) (by omega)]
    rw [Heap.find_alloc_ne _ _ (by omega)]
    exact hf2
  have hfindv :
      (mergeBaseKeys (h.alloc (.objC [])).2 (.ref a1) (Val.ref h.next) (f1.map Prod.fst)).find av
        = some c := by
    rw [hframe' av (Nat.lt_succ_of_lt hav) (by omega)]
    rw [Heap.find_alloc_ne _ _ (by omega)]
    exact hfv
  have hv2 :
      getProp (mergeBaseKeys (h.alloc (.objC [])).2 (.ref a1) (Val.ref h.next)
        (f1.map Prod.fst)) (.ref a2) (.name k) = .ref av := by
    rw [getProp, hfind2]
    show (lookupField [(k, Val.ref av)] k).getD (.prim .undef) = .ref av
    rw [lookupField_single]
    rfl
  have hclav1 :
      isCloneable (mergeBaseKeys (h.alloc (.objC [])).2 (.ref a1) (Val.ref h.next)
        (f1.map Prod.fst)) (.ref av) = false := by
    rw [isCloneable, hfindv]
    rw [isCloneable, hfv] at hclav
    exact hclav
  rw [mergeOverrideKeys, hv2]
  rw [if_neg (by rw [hclav1]; exact Bool.false_ne_true)]
  refine ⟨_, rfl, ?_⟩
  exact getProp_setProp_self (.name k) _ hf' rfl

/-- Witness for C9: base `{k: {old: 1}}`, override `{k: d}` with `d` a `Date`
instance: the merged object maps `k` to the very same `Date` reference. -/
theorem merge_atomic_overwrite_witness :
    ((⟨[(0, .objC [("k", .ref 2)]), (1, .objC [("k", .ref 3)]),
        (2, .objC [("old", .prim (.num 1))]), (3, .dateC)], 4⟩ : Heap).wfB = true) ∧
    (Cell.isAtomic .dateC = true) ∧
    (isCloneable ⟨[(0, .objC [("k", .ref 2)]), (1, .objC [("k", .ref 3)]),
        (2, .objC [("old", .prim (.num 1))]), (3, .dateC)], 4⟩ (.ref 3) = false ∧
      cloneIfPossible ⟨[(0, .objC [("k", .ref 2)]), (1, .objC [("k", .ref 3)]),
          (2, .objC [("old", .prim (.num 1))]), (3, .dateC)], 4⟩ (.ref 3)
        = (.ref 3, ⟨[(0, .objC [("k", .ref 2)]), (1, .objC [("k", .ref 3)]),
            (2, .objC [("old", .prim (.num 1))]), (3, .dateC)], 4⟩) ∧
      ∃ h', getDeeplyMergedObject 1 ⟨[(0, .objC [("k", .ref 2)]), (1, .objC [("k", .ref 3)]),
          (2, .objC [("old", .prim (.num 1))]), (3, .dateC)], 4⟩ (.ref 0) (.ref 1)
          = .ok (Val.ref 4, h') ∧
        getProp h' (Val.ref 4) (.name "k") = .ref 3) :=
  ⟨by decide, by decide,
    merge_atomic_overwrite 0 _ 0 1 3 "k" [("k", .ref 2)] .dateC
      (by decide) (by decide) (by decide) (by decide) (by decide)⟩

end Unchanged

namespace Unchanged

/-! ### Closure of property reads below an address bound -/

theorem listGetD_below {n : Nat} {l : List Val} (hl : ∀ v ∈ l, valBelow n v = true)
    (i : Nat) : valBelow n (listGetD l i) = true := by
  induction l generalizing i with
  | nil => cases i <;> rfl
  | cons x t iht =>
    cases i with
    | zero => exact hl x (List.mem_cons_self _ _)
    | succ j => exact iht (fun w hw => hl w (List.mem_cons_of_mem _ hw)) j

theorem lookupField_below {n : Nat} {l : List (String × Val)} (hl : fieldsBelow n l = true)
    (s : String) : valBelow n ((lookupField l s).getD (.prim .undef)) = true := by
  induction l with
  | nil => rfl
  | cons p t iht =>
    obtain ⟨k0, v0⟩ := p
    rw [show fieldsBelow n ((k0, v0) :: t) = (valBelow n v0 && fieldsBelow n t) from rfl,
      Bool.and_eq_true] at hl
    rw [lookupField]
    split
    · simpa using hl.1
    · exact iht hl.2

theorem getProp_below {n : Nat} {h : Heap}
    (hclosed : ∀ b cb, b < n → h.find b = some cb → cellBelow n cb = true)
    {v : Val} (hv : valBelow n v = true) (k : Key) :
    valBelow n (getProp h v k) = true := by
  cases v with
  | prim p =>
    cases p with
    | str s =>
      rw [getProp]
      cases hck : charKeyIndex k with
      | none => rfl
      | some i =>
        show valBelow n
          (match s.data.get? i with
            | some c => Val.prim (Prim.str (String.mk [c]))
            | none => Val.prim Prim.undef) = true
        rcases hg : s.data.get? i with _ | ch <;> rfl
    | undef => rfl
    | null => rfl
    | boolV b => rfl
    | num m => rfl
  | ref a =>
    simp only [valBelow, decide_eq_true_eq] at hv
    rcases hf : h.find a with _ | cell
    · simp only [getProp, hf]
      rfl
    · have hcb := hclosed a cell hv hf
      cases cell with
      | arrC e p =>
        rw [cellBelow, Bool.and_eq_true] at hcb
        simp only [getProp, hf]
        cases hck : charKeyIndex k with
        | some i => exact listGetD_below (fun w hw => (List.all_eq_true.mp hcb.1) w hw) i
        | none => exact lookupField_below hcb.2 _
      | objC f =>
        simp only [getProp, hf]
        exact lookupField_below hcb _
      | customC nc f =>
        simp only [getProp, hf]
        exact lookupField_below hcb _
      | reactC f =>
        simp only [getProp, hf]
        exact lookupField_below hcb _
      | dateC =>
        simp only [getProp, hf]
        rfl
      | regexC =>
        simp only [getProp, hf]
        rfl

theorem plainClonable_congr {h h' : Heap} {v : Val}
    (hv : ∀ a, v = Val.ref a → h'.find a = h.find a) :
    plainClonable h' v = plainClonable h v := by
  cases v with
  | prim p => rfl
  | ref a => simp only [plainClonable, hv a rfl]

theorem pathFitsAux_congr (path : List Key) :
    ∀ {n : Nat} {h h' : Heap} {o : Val},
      (∀ b, b < n → h'.find b = h.find b) →
      (∀ b cb, b < n → h.find b = some cb → cellBelow n cb = true) →
      valBelow n o = true →
      pathFitsAux h' o path = pathFitsAux h o path := by
  induction path with
  | nil =>
    intro n h h' o _ _ _
    rfl
  | cons k rest ih =>
    intro n h h' o hag hclosed hv
    cases rest with
    | nil => rfl
    | cons k2 r2 =>
      have hreads : ∀ a, o = Val.ref a → h'.find a = h.find a := by
        intro a h0
        subst h0
        simp only [valBelow, decide_eq_true_eq] at hv
        exact hag a hv
      have hchild : getProp h' o k = getProp h o k := getProp_congr k hreads
      have hvchild : valBelow n (getProp h o k) = true := getProp_below hclosed hv k
      have hreads' : ∀ a, getProp h o k = Val.ref a → h'.find a = h.find a := by
        intro a h0
        rw [h0] at hvchild
        simp only [valBelow, decide_eq_true_eq] at hvchild
        exact hag a hvchild
      rw [pathFitsAux, pathFitsAux, hchild, plainClonable_congr hreads',
        isArray_congr hreads', ih hag hclosed hvchild]

theorem offPathShared_congr_old (path : List Key) :
    ∀ {n : Nat} {hOld hOld' hNew : Heap} {o c : Val},
      (∀ b, b < n → hOld'.find b = hOld.find b) →
      (∀ b cb, b < n → hOld.find b = some cb → cellBelow n cb = true) →
      valBelow n o = true →
      offPathShared hOld hNew o c path → offPathShared hOld' hNew o c path := by
  induction path with
  | nil =>
    intro n hOld hOld' hNew o c _ _ _ hops
    exact hops
  | cons k rest ih =>
    intro n hOld hOld' hNew o c hag hclosed hv hops
    obtain ⟨h1, h2⟩ := hops
    have hreads : ∀ a, o = Val.ref a → hOld'.find a = hOld.find a := by
      intro a h0
      subst h0
      simp only [valBelow, decide_eq_true_eq] at hv
      exact hag a hv
    have hvchild : valBelow n (getProp hOld o k) = true := getProp_below hclosed hv k
    refine ⟨?_, ?_⟩
    · intro k' hk'
      rw [h1 k' hk']
      exact (getProp_congr k' hreads).symm
    · rw [getProp_congr k hreads]
      exact ih hag hclosed hvchild h2

/-! ### Faithful clones of plain containers -/

theorem plainClonable_cases {h : Heap} {v : Val} (hp : plainClonable h v = true) :
    ∃ a, v = Val.ref a ∧
      ((∃ e, h.find a = some (.arrC e [])) ∨ (∃ f, h.find a = some (.objC f)) ∨
        (∃ f, h.find a = some (.customC false f))) := by
  cases v with
  | prim p => simp [plainClonable] at hp
  | ref a =>
    refine ⟨a, rfl, ?_⟩
    rcases hf : h.find a with _ | cell
    · rw [plainClonable, hf] at hp
      cases hp
    · cases cell with
      | arrC e p =>
        rw [plainClonable, hf] at hp
        have hpnil : p = [] := by
          cases p with
          | nil => rfl
          | cons q t => simp [List.isEmpty] at hp
        exact Or.inl ⟨e, by rw [hpnil]⟩
      | objC f => exact Or.inr (Or.inl ⟨f, rfl⟩)
      | customC nc f =>
        rw [plainClonable, hf] at hp
        cases nc with
        | false => exact Or.inr (Or.inr ⟨f, rfl⟩)
        | true => cases hp
      | reactC f =>
        rw [plainClonable, hf] at hp
        cases hp
      | dateC =>
        rw [plainClonable, hf] at hp
        cases hp
      | regexC =>
        rw [plainClonable, hf] at hp
        cases hp

theorem plainClonable_isCloneable {h : Heap} {v : Val} (hp : plainClonable h v = true) :
    isCloneable h v = true := by
  obtain ⟨a, rfl, hcase⟩ := plainClonable_cases hp
  rcases hcase with ⟨e, hf⟩ | ⟨f, hf⟩ | ⟨f, hf⟩ <;> rw [isCloneable, hf]

theorem getProp_same_cell {h h' : Heap} {a a' : Nat} {cell : Cell}
    (hf : h.find a = some cell) (hf' : h'.find a' = some cell) (k : Key) :
    getProp h' (Val.ref a') k = getProp h (Val.ref a) k := by
  rw [getProp, getProp, hf, hf']

theorem getShallowClone_plain {h : Heap} {v : Val} (hp : plainClonable h v = true) :
    ∃ a cell, v = Val.ref a ∧ h.find a = some cell ∧ Cell.settable cell = true ∧
      getShallowClone h v = h.alloc cell := by
  obtain ⟨a, rfl, hcase⟩ := plainClonable_cases hp
  rcases hcase with ⟨e, hf⟩ | ⟨f, hf⟩ | ⟨f, hf⟩
  · exact ⟨a, .arrC e [], rfl, hf, rfl, by rw [getShallowClone, hf]⟩
  · exact ⟨a, .objC f, rfl, hf, rfl, by rw [getShallowClone, hf]⟩
  · exact ⟨a, .customC false f, rfl, hf, rfl, by rw [getShallowClone, hf]; rfl⟩

end Unchanged

namespace Unchanged

theorem getNewChildClone_plain {h : Heap} {v : Val} {k : Key}
    (hp : plainClonable h v = true) (hkind : isArray h v = keyIsIdx k)
    (ha : ∀ a0, v = Val.ref a0 → a0 < h.next) :
    ∃ a0 cell, v = Val.ref a0 ∧ h.find a0 = some cell ∧ Cell.settable cell = true ∧
      (getNewChildClone h v k).1 = Val.ref (h.next + 1) ∧
      (getNewChildClone h v k).2.find (h.next + 1) = some cell ∧
      (getNewChildClone h v k).2.next = h.next + 2 ∧
      ∀ b, b < h.next → (getNewChildClone h v k).2.find b = h.find b := by
  obtain ⟨a0, rfl, hcase⟩ := plainClonable_cases hp
  have ha0 : a0 < h.next := ha a0 rfl
  have hreads : ∀ a1, (Val.ref a0 : Val) = Val.ref a1 →
      (h.alloc (emptyCellForKey k)).2.find a1 = h.find a1 := by
    intro a1 h0
    cases h0
    exact Heap.find_alloc_ne _ _ (by omega)
  have hp1 : plainClonable (h.alloc (emptyCellForKey k)).2 (Val.ref a0) = true := by
    rw [plainClonable_congr hreads]
    exact hp
  have hc1 : isCloneable (h.alloc (emptyCellForKey k)).2 (Val.ref a0) = true :=
    plainClonable_isCloneable hp1
  obtain ⟨a1, cell, heq, hf1, hset, hclone⟩ := getShallowClone_plain hp1
  cases heq
  have hf0 : h.find a0 = some cell := by
    rw [← hreads a0 rfl]
    exact hf1
  refine ⟨a0, cell, rfl, hf0, hset, ?_⟩
  have hbranch : getNewChildClone h (Val.ref a0) k
      = (h.alloc (emptyCellForKey k)).2.alloc cell := by
    rw [getNewChildClone, getNewEmptyChild_eq]
    rw [if_neg (by simp [hc1])]
    rw [if_pos (by rw [isArray_congr hreads, hkind, isArray_fresh_empty, beq_self_eq_true])]
    rw [cloneIfPossible, if_pos hc1, hclone]
  rw [hbranch]
  refine ⟨rfl, Heap.find_alloc_self _ _, rfl, ?_⟩
  intro b hb
  rw [Heap.find_alloc_ne _ _ (show b ≠ (h.alloc (emptyCellForKey k)).2.next by
    show b ≠ h.next + 1
    omega)]
  exact Heap.find_alloc_ne _ _ (by omega)

end Unchanged

namespace Unchanged

/-! ### The write-mode walker shares every off-path slot along a fitting path -/

theorem onMatchAtPath_write_offpath (V : Val) (path : List Key) :
    ∀ (h : Heap) (n ao ac : Nat) (cc0 : Cell), path ≠ [] →
      n ≤ ac → ac < h.next → ao < n →
      h.find ac = some cc0 → Cell.settable cc0 = true →
      (∀ b cb, b < n → h.find b = some cb → cellBelow n cb = true) →
      (∀ k', getProp h (Val.ref ac) k' = getProp h (Val.ref ao) k') →
      pathFitsAux h (Val.ref ao) path = true →
      ∀ g : Heap,
        (∀ b, b < n ∨ ac ≤ b →
          g.find b
            = (onMatchAtPath h path (Val.ref ac) (assignCb V) true (.prim .undef)).2.find b) →
        offPathShared h g (Val.ref ao) (Val.ref ac) path := by
  induction path with
  | nil =>
    intro h n ao ac cc0 hne
    exact absurd rfl hne
  | cons key rest ih =>
    intro h n ao ac cc0 _ hnac hach hao hfac hsac hclosed hco hfits g hag
    cases rest with
    | nil =>
      rw [onMatchAtPath_single_write] at hag
      have hag' : ∀ b, b < n ∨ ac ≤ b →
          g.find b = (setProp h (Val.ref ac) key V).find b := fun b hb => hag b hb
      rw [offPathShared]
      refine ⟨?_, trivial⟩
      intro k' hk'
      have hgac : ∀ a1, (Val.ref ac : Val) = Val.ref a1 →
          g.find a1 = (setProp h (Val.ref ac) key V).find a1 := by
        intro a1 h1
        cases h1
        exact hag' ac (Or.inr (Nat.le_refl _))
      rw [getProp_congr k' hgac, getProp_setProp_other key k' V hfac hsac hk']
      exact hco k'
    | cons nextKey more =>
      rw [pathFitsAux] at hfits
      obtain ⟨hpk, hfits'⟩ := Bool.and_eq_true_iff.mp hfits
      obtain ⟨hplain, hkind⟩ := Bool.and_eq_true_iff.mp hpk
      have hvao : valBelow n (Val.ref ao) = true := by
        simp only [valBelow, decide_eq_true_eq]
        omega
      have hvchild : valBelow n (getProp h (Val.ref ao) key) = true :=
        getProp_below hclosed hvao key
      obtain ⟨ao', hchild_eq, _⟩ := plainClonable_cases hplain
      have hao' : ao' < n := by
        rw [hchild_eq] at hvchild
        simpa [valBelow] using hvchild
      have hochild : getProp h (Val.ref ac) key = Val.ref ao' := by
        rw [hco key]
        exact hchild_eq
      have hplain' : plainClonable h (getProp h (Val.ref ac) key) = true := by
        rw [hco key]
        exact hplain
      have hkind' : isArray h (getProp h (Val.ref ac) key) = keyIsIdx nextKey := by
        rw [hco key]
        exact beq_iff_eq.mp hkind
      have hach' : ∀ a0, getProp h (Val.ref ac) key = Val.ref a0 → a0 < h.next := by
        intro a0 h0
        rw [hochild] at h0
        cases h0
        omega
      obtain ⟨a0, ccell, hcv, hcf, hcset, hcc1, hccfind, hccnext, hccframe⟩ :=
        getNewChildClone_plain hplain' hkind' hach'
      have ha0 : a0 = ao' := by
        have := hcv.symm.trans hochild
        cases this
        rfl
      subst ha0
      rw [onMatchAtPath_cons_write, hcc1] at hag
      obtain ⟨hR1, _, hRframe⟩ :=
        onMatchAtPath_write_frame V (nextKey :: more)
          (getNewChildClone h (getProp h (Val.ref ac) key) nextKey).2 (h.next + 1) (ac + 1)
          (by simp) (by omega) (by rw [hccnext]; omega)
      have hRac :
          (onMatchAtPath (getNewChildClone h (getProp h (Val.ref ac) key) nextKey).2
            (nextKey :: more) (Val.ref (h.next + 1)) (assignCb V) true
            (.prim .undef)).2.find ac = some cc0 := by
        rw [hRframe ac (by omega), hccframe ac hach]
        exact hfac
      rw [offPathShared]
      have hgac : ∀ a1, (Val.ref ac : Val) = Val.ref a1 →
          g.find a1
            = (setProp
                (onMatchAtPath (getNewChildClone h (getProp h (Val.ref ac) key) nextKey).2
                  (nextKey :: more) (Val.ref (h.next + 1)) (assignCb V) true
                  (.prim .undef)).2
                (Val.ref ac) key
                (onMatchAtPath (getNewChildClone h (getProp h (Val.ref ac) key) nextKey).2
                  (nextKey :: more) (Val.ref (h.next + 1)) (assignCb V) true
                  (.prim .undef)).1).find a1 := by
        intro a1 h1
        cases h1
        exact hag ac (Or.inr (Nat.le_refl _))
      constructor
      · intro k' hk'
        rw [getProp_congr k' hgac, getProp_setProp_other key k' _ hRac hsac hk']
        have hlow : ∀ a1, (Val.ref ac : Val) = Val.ref a1 →
            (onMatchAtPath (getNewChildClone h (getProp h (Val.ref ac) key) nextKey).2
              (nextKey :: more) (Val.ref (h.next + 1)) (assignCb V) true
              (.prim .undef)).2.find a1 = h.find a1 := by
          intro a1 h1
          cases h1
          rw [hRframe ac (by omega), hccframe ac hach]
        rw [getProp_congr k' hlow]
        exact hco k'
      · have hgkey : getProp g (Val.ref ac) key = Val.ref (h.next + 1) := by
          calc getProp g (Val.ref ac) key
              = getProp
                  (setProp
                    (onMatchAtPath (getNewChildClone h (getProp h (Val.ref ac) key) nextKey).2
                      (nextKey :: more) (Val.ref (h.next + 1)) (assignCb V) true
                      (.prim .undef)).2
                    (Val.ref ac) key
                    (onMatchAtPath (getNewChildClone h (getProp h (Val.ref ac) key)
                      nextKey).2 (nextKey :: more) (Val.ref (h.next + 1)) (assignCb V) true
                      (.prim .undef)).1)
                  (Val.ref ac) key := getProp_congr key hgac
            _ = (onMatchAtPath (getNewChildClone h (getProp h (Val.ref ac) key) nextKey).2
                  (nextKey :: more) (Val.ref (h.next + 1)) (assignCb V) true
                  (.prim .undef)).1 := getProp_setProp_self key _ hRac hsac
            _ = Val.ref (h.next + 1) := hR1
        rw [hgkey, hchild_eq]
        have hccframe_n : ∀ b, b < n →
            h.find b
              = (getNewChildClone h (getProp h (Val.ref ac) key) nextKey).2.find b := by
          intro b hb
          exact (hccframe b (by omega)).symm
        have hclosed' : ∀ b cb, b < n →
            (getNewChildClone h (getProp h (Val.ref ac) key) nextKey).2.find b = some cb →
            cellBelow n cb = true := by
          intro b cb hb hf
          rw [hccframe b (by omega)] at hf
          exact hclosed b cb hb hf
        have hva0 : valBelow n (Val.ref a0) = true := by
          simp only [valBelow, decide_eq_true_eq]
          omega
        refine offPathShared_congr_old (nextKey :: more) (n := n) hccframe_n hclosed' hva0 ?_
        have hco' : ∀ k'',
            getProp (getNewChildClone h (getProp h (Val.ref ac) key) nextKey).2
              (Val.ref (h.next + 1)) k''
              = getProp (getNewChildClone h (getProp h (Val.ref ac) key) nextKey).2
                  (Val.ref a0) k'' := by
          intro k''
          rw [getProp_same_cell hcf hccfind k'']
          refine (getProp_congr k'' ?_).symm
          intro a1 h1
          cases h1
          exact hccframe a0 (by omega)
        have hfits'' :
            pathFitsAux (getNewChildClone h (getProp h (Val.ref ac) key) nextKey).2
              (Val.ref a0) (nextKey :: more) = true := by
          rw [pathFitsAux_congr (nextKey :: more) (n := n)
            (fun b hb => hccframe b (by omega)) hclosed hva0]
          rw [hchild_eq] at hfits'
          exact hfits'
        refine ih (getNewChildClone h (getProp h (Val.ref ac) key) nextKey).2 n a0
          (h.next + 1) ccell (by simp) (by omega) (by rw [hccnext]; omega) hao'
          hccfind hcset hclosed' hco' hfits'' g ?_
        intro b hb
        rcases hb with hbn | hbge
        · rw [hag b (Or.inl hbn)]
          rw [setProp_find_other _ _ key _ (fun a1 h1 => by cases h1; omega)]
        · rw [hag b (Or.inr (by omega))]
          rw [setProp_find_other _ _ key _ (fun a1 h1 => by cases h1; omega)]

end Unchanged

namespace Unchanged

/-- C2 (amended): provided every container along the path — the root and each
visited child — is a faithfully cloneable plain container and each child's
kind matches the key addressing the next step (`pathFits`), every slot not on
the path holds, in the new tree, the very same value (the same reference) as
in the original tree, at every level of the path. -/
theorem setAtPath_structural_sharing (h : Heap) (path : List Key) (V root : Val)
    (hwf : h.wfB = true) (hcl : h.closedB = true) (hne : path ≠ [])
    (hfits : pathFits h root path = true) :
    offPathShared h (setAtPath h path V root).2 root (setAtPath h path V root).1 path := by
  rw [setAtPath_eq]
  obtain ⟨hplain, hfaux⟩ := Bool.and_eq_true_iff.mp hfits
  obtain ⟨ar, rfl, _⟩ := plainClonable_cases hplain
  obtain ⟨a1, cellr, heq, hfr, hsetr, hclone⟩ := getShallowClone_plain hplain
  cases heq
  have har : ar < h.next := Heap.find_lt_next hwf hfr
  have hcr : isCloneable h (Val.ref ar) = true := plainClonable_isCloneable hplain
  have hclosed : ∀ b cb, b < h.next → h.find b = some cb → cellBelow h.next cb = true :=
    fun b cb _ hf => closed_cell hcl hf
  cases path with
  | nil => exact absurd rfl hne
  | cons key rest =>
    cases rest with
    | nil =>
      simp only [getDeepClone]
      rw [if_pos hcr, hclone]
      rw [offPathShared]
      refine ⟨?_, trivial⟩
      intro k' hk'
      rw [show ((h.alloc cellr).1 : Val) = Val.ref h.next from rfl]
      rw [show (assignCb V (h.alloc cellr).2 (Val.ref h.next) key).2
          = setProp (h.alloc cellr).2 (Val.ref h.next) key V from rfl]
      rw [getProp_setProp_other key k' V (Heap.find_alloc_self h cellr) hsetr hk']
      exact getProp_same_cell hfr (Heap.find_alloc_self h cellr) k'
    | cons nextKey more =>
      simp only [getDeepClone]
      rw [if_pos hcr, hclone]
      obtain ⟨hW1, _, _⟩ :=
        onMatchAtPath_write_frame V (key :: nextKey :: more) (h.alloc cellr).2 h.next h.next
          (by simp) (Nat.le_refl _) (Nat.le_succ _)
      rw [show ((h.alloc cellr).1 : Val) = Val.ref h.next from rfl, hW1]
      have hagree : ∀ b, b < h.next → h.find b = (h.alloc cellr).2.find b := by
        intro b hb
        exact (Heap.find_alloc_ne _ _ (by omega)).symm
      have hclosed1 : ∀ b cb, b < h.next → (h.alloc cellr).2.find b = some cb →
          cellBelow h.next cb = true := by
        intro b cb hb hf
        rw [Heap.find_alloc_ne _ _ (by omega)] at hf
        exact hclosed b cb hb hf
      have hvar : valBelow h.next (Val.ref ar) = true := by
        simp only [valBelow, decide_eq_true_eq]
        omega
      refine offPathShared_congr_old (key :: nextKey :: more) (n := h.next)
        hagree hclosed1 hvar ?_
      have hco : ∀ k',
          getProp (h.alloc cellr).2 (Val.ref h.next) k'
            = getProp (h.alloc cellr).2 (Val.ref ar) k' := by
        intro k'
        rw [getProp_same_cell hfr (Heap.find_alloc_self h cellr) k']
        refine (getProp_congr k' ?_).symm
        intro a2 h2
        cases h2
        exact Heap.find_alloc_ne _ _ (by omega)
      have hfaux1 : pathFitsAux (h.alloc cellr).2 (Val.ref ar) (key :: nextKey :: more)
          = true := by
        rw [pathFitsAux_congr (key :: nextKey :: more) (n := h.next)
          (fun b hb => Heap.find_alloc_ne _ _ (by omega)) hclosed hvar]
        exact hfaux
      exact onMatchAtPath_write_offpath V (key :: nextKey :: more) (h.alloc cellr).2 h.next
        ar h.next cellr (by simp) (Nat.le_refl _) (Nat.lt_succ_self _) har
        (Heap.find_alloc_self h cellr) hsetr hclosed1 hco hfaux1 _ (fun b _ => rfl)

/-- C2 (counterexample to the claim as stated): for T = `{x: [n2]}` (where
`n2` is the object node `{q: 1}` at position `['x', 0]`, not an ancestor of
the target) and the write `setAtPath(['x','y'], 1, T)`, the kind-mismatch
rule discards the array under `x`, so the node `n2` is not shared between the
old and the new root: position `['x', 0]` holds `n2` in the old tree and
`undefined` in the new one, falsifying the unconditional claim. -/
theorem setAtPath_sharing_counterexample :
    getPath ⟨[(0, .objC [("x", .ref 1)]), (1, .arrC [.ref 2] []),
        (2, .objC [("q", .prim (.num 1))])], 3⟩ (.ref 0) [.name "x", .idx 0] = .ref 2 ∧
    getPath
      (setAtPath ⟨[(0, .objC [("x", .ref 1)]), (1, .arrC [.ref 2] []),
          (2, .objC [("q", .prim (.num 1))])], 3⟩
        [.name "x", .name "y"] (.prim (.num 1)) (.ref 0)).2
      (setAtPath ⟨[(0, .objC [("x", .ref 1)]), (1, .arrC [.ref 2] []),
          (2, .objC [("q", .prim (.num 1))])], 3⟩
        [.name "x", .name "y"] (.prim (.num 1)) (.ref 0)).1
      [.name "x", .idx 0] = .prim .undef ∧
    ¬ offPathShared ⟨[(0, .objC [("x", .ref 1)]), (1, .arrC [.ref 2] []),
        (2, .objC [("q", .prim (.num 1))])], 3⟩
      (setAtPath ⟨[(0, .objC [("x", .ref 1)]), (1, .arrC [.ref 2] []),
          (2, .objC [("q", .prim (.num 1))])], 3⟩
        [.name "x", .name "y"] (.prim (.num 1)) (.ref 0)).2
      (.ref 0)
      (setAtPath ⟨[(0, .objC [("x", .ref 1)]), (1, .arrC [.ref 2] []),
          (2, .objC [("q", .prim (.num 1))])], 3⟩
        [.name "x", .name "y"] (.prim (.num 1)) (.ref 0)).1
      [.name "x", .name "y"] :=
  ⟨rfl, rfl, fun hops => absurd (hops.2.1 (.idx 0) (by decide)) (by decide)⟩

/-- Witness for the amended C2 at T = `{a: {b: 1}, c: {d: 2}}`,
P = `['a','b']`, V = `99`: the path fits, every off-path slot is shared, and
in particular the `c` subtree of the new root is the very same reference as
`T.c`. -/
theorem setAtPath_structural_sharing_witness :
    ((⟨[(0, .objC [("a", .ref 1), ("c", .ref 2)]),
        (1, .objC [("b", .prim (.num 1))]),
        (2, .objC [("d", .prim (.num 2))])], 3⟩ : Heap).wfB = true) ∧
    ((⟨[(0, .objC [("a", .ref 1), ("c", .ref 2)]),
        (1, .objC [("b", .prim (.num 1))]),
        (2, .objC [("d", .prim (.num 2))])], 3⟩ : Heap).closedB = true) ∧
    ([Key.name "a", Key.name "b"] ≠ ([] : List Key)) ∧
    (pathFits ⟨[(0, .objC [("a", .ref 1), ("c", .ref 2)]),
        (1, .objC [("b", .prim (.num 1))]),
        (2, .objC [("d", .prim (.num 2))])], 3⟩ (.ref 0) [Key.name "a", Key.name "b"]
      = true) ∧
    offPathShared ⟨[(0, .objC [("a", .ref 1), ("c", .ref 2)]),
        (1, .objC [("b", .prim (.num 1))]),
        (2, .objC [("d", .prim (.num 2))])], 3⟩
      (setAtPath ⟨[(0, .objC [("a", .ref 1), ("c", .ref 2)]),
          (1, .objC [("b", .prim (.num 1))]),
          (2, .objC [("d", .prim (.num 2))])], 3⟩
        [Key.name "a", Key.name "b"] (.prim (.num 99)) (.ref 0)).2
      (.ref 0)
      (setAtPath ⟨[(0, .objC [("a", .ref 1), ("c", .ref 2)]),
          (1, .objC [("b", .prim (.num 1))]),
          (2, .objC [("d", .prim (.num 2))])], 3⟩
        [Key.name "a", Key.name "b"] (.prim (.num 99)) (.ref 0)).1
      [Key.name "a", Key.name "b"] ∧
    getProp
      (setAtPath ⟨[(0, .objC [("a", .ref 1), ("c", .ref 2)]),
          (1, .objC [("b", .prim (.num 1))]),
          (2, .objC [("d", .prim (.num 2))])], 3⟩
        [Key.name "a", Key.name "b"] (.prim (.num 99)) (.ref 0)).2
      (setAtPath ⟨[(0, .objC [("a", .ref 1), ("c", .ref 2)]),
          (1, .objC [("b", .prim (.num 1))]),
          (2, .objC [("d", .prim (.num 2))])], 3⟩
        [Key.name "a", Key.name "b"] (.prim (.num 99)) (.ref 0)).1
      (.name "c")
      = getProp ⟨[(0, .objC [("a", .ref 1), ("c", .ref 2)]),
          (1, .objC [("b", .prim (.num 1))]),
          (2, .objC [("d", .prim (.num 2))])], 3⟩ (.ref 0) (.name "c") :=
  have hs := setAtPath_structural_sharing
    ⟨[(0, .objC [("a", .ref 1), ("c", .ref 2)]),
      (1, .objC [("b", .prim (.num 1))]),
      (2, .objC [("d", .prim (.num 2))])], 3⟩
    [Key.name "a", Key.name "b"] (.prim (.num 99)) (.ref 0)
    (by decide) (by decide) (by decide) (by decide)
  ⟨by decide, by decide, by decide, by decide, hs, hs.1 (.name "c") (by decide)⟩

end Unchanged
